import Mathlib

/-!
Verification of the pre/post-order region-encoding XPath accelerator.

The development shallowly embeds the tree model (`model.py`), the axis
evaluation queries over the relational store (`axes.py`) and the bounded
evaluator (`window_optimization.py`), and proves the spec's claims about
them.
-/

set_option maxHeartbeats 1000000
set_option maxRecDepth 10000
set_option linter.unnecessarySimpa false

namespace DMRXPath

/-- A tree node before encoding, mirroring `model.Node`: a type tag,
optional text content and an ordered list of children (`model.py` lines
9-34).  Attributes and `s_id` play no role in any claim and are omitted. -/
inductive Node where
  | mk (type_ : String) (content : Option String) (children : List Node)
deriving Repr

def Node.type : Node → String
  | .mk t _ _ => t

def Node.content : Node → Option String
  | .mk _ c _ => c

def Node.children : Node → List Node
  | .mk _ _ cs => cs

/-- A node after the encoder ran: the same data plus the `pre_order` and
`post_order` fields that `Node.calculate_traversal_orders` fills in. -/
inductive ANode where
  | mk (type_ : String) (content : Option String) (pre post : Nat)
       (children : List ANode)
deriving Repr

mutual
def ANode.deq : (a b : ANode) → Decidable (a = b)
  | .mk t1 c1 p1 q1 cs1, .mk t2 c2 p2 q2 cs2 =>
    if h1 : t1 = t2 then
      if h2 : c1 = c2 then
        if h3 : p1 = p2 then
          if h4 : q1 = q2 then
            match ANode.deqList cs1 cs2 with
            | isTrue h5 => isTrue (by rw [h1, h2, h3, h4, h5])
            | isFalse h5 => isFalse (by intro h; injection h; contradiction)
          else isFalse (by intro h; injection h; contradiction)
        else isFalse (by intro h; injection h; contradiction)
      else isFalse (by intro h; injection h; contradiction)
    else isFalse (by intro h; injection h; contradiction)

def ANode.deqList : (as bs : List ANode) → Decidable (as = bs)
  | [], [] => isTrue rfl
  | [], _ :: _ => isFalse (by intro h; injection h)
  | _ :: _, [] => isFalse (by intro h; injection h)
  | a :: as, b :: bs =>
    match ANode.deq a b, ANode.deqList as bs with
    | isTrue h1, isTrue h2 => isTrue (by rw [h1, h2])
    | isFalse h1, _ => isFalse (by intro h; injection h; contradiction)
    | _, isFalse h2 => isFalse (by intro h; injection h; contradiction)
end

instance : DecidableEq ANode := ANode.deq

def ANode.type : ANode → String
  | .mk t _ _ _ _ => t

def ANode.content : ANode → Option String
  | .mk _ c _ _ _ => c

def ANode.pre : ANode → Nat
  | .mk _ _ p _ _ => p

def ANode.post : ANode → Nat
  | .mk _ _ _ q _ => q

def ANode.children : ANode → List ANode
  | .mk _ _ _ _ cs => cs

mutual
/-- Number of nodes of a tree. -/
def Node.size : Node → Nat
  | .mk _ _ cs => 1 + Node.sizeList cs

/-- Number of nodes of a forest. -/
def Node.sizeList : List Node → Nat
  | [] => 0
  | t :: ts => Node.size t + Node.sizeList ts
end

mutual
/-- `Node.calculate_traversal_orders` (`model.py` lines 36-52): assign the
current pre counter on entry, recurse into the children in document order,
assign the current post counter on exit.  The Python mutates the node and
two one-element counter lists in place; here the annotated node and the
final counter values are returned. -/
def calculate_traversal_orders (t : Node) (pre post : Nat) :
    ANode × Nat × Nat :=
  match t with
  | .mk ty co cs =>
    let r := calcList cs (pre + 1) post
    (.mk ty co pre r.2.2 r.1, r.2.1, r.2.2 + 1)

/-- The encoder's loop `for child in self.children`. -/
def calcList (ts : List Node) (pre post : Nat) :
    List ANode × Nat × Nat :=
  match ts with
  | [] => ([], pre, post)
  | t :: ts' =>
    let r1 := calculate_traversal_orders t pre post
    let r2 := calcList ts' r1.2.1 r1.2.2
    (r1.1 :: r2.1, r2.2.1, r2.2.2)
end

/-- `annotate_traversal_orders` (`model.py` lines 172-193): both counters
start at 1. -/
def annotate_traversal_orders (root : Node) : ANode :=
  (calculate_traversal_orders root 1 1).1

mutual
/-- All nodes of an annotated subtree, listed in pre-order (the node
itself first, then the subtrees of the children in document order). -/
def subAll : ANode → List ANode
  | .mk ty co p q cs => .mk ty co p q cs :: subList cs

def subList : List ANode → List ANode
  | [] => []
  | t :: ts => subAll t ++ subList ts
end

mutual
/-- All nodes of an annotated subtree, listed in post-order (children's
subtrees first, the node itself last). -/
def postAll : ANode → List ANode
  | .mk ty co p q cs => postListL cs ++ [.mk ty co p q cs]

def postListL : List ANode → List ANode
  | [] => []
  | t :: ts => postAll t ++ postListL ts
end

/-- `u` lies strictly below `a` (proper-descendant relation on annotated
trees). -/
def strictBelow (a u : ANode) : Prop := u ∈ subList a.children

instance (a u : ANode) : Decidable (strictBelow a u) := by
  unfold strictBelow; infer_instance

/-- Python's `s.strip()` is truthy exactly when `s` contains a
non-whitespace character. -/
def hasNonWS (s : String) : Bool := s.data.any fun ch => !ch.isWhitespace

/-- Text stored in the `content` table for a node: `insert_to_db` writes a
row only when `self.content is not None and self.content.strip()`
(`model.py` lines 95-99) — i.e. when the content has a non-whitespace
character; the stored text is the original content.  Queries read it back
via `LEFT JOIN content`, `none` standing for SQL NULL. -/
def contentStored : Option String → Option String
  | none => none
  | some s => if hasNonWS s then some s else none

/-- Python truthiness of the fetched optional text (`and node_content`,
`axes.py` line 382). -/
def pyTruthy : Option String → Bool
  | none => false
  | some s => !(s == "")

/-- One row of the `accel` table (`db.py` lines 98-108) joined with its
optional `content` text: `{id, parent, type, pre_order, post_order}` plus
the content.  `s_id` and attributes play no role in any claim. -/
structure Row where
  id : Nat
  parent : Option Nat
  type : String
  content : Option String
  pre : Nat
  post : Nat
deriving DecidableEq, Repr

mutual
/-- `Node.insert_to_db` (`model.py` lines 69-110): one row per node with
`db_id = post_order`, children inserted recursively with this node's id as
their parent. -/
def insert_to_db : ANode → Option Nat → List Row
  | .mk ty co p q cs, parent_id =>
    ⟨q, parent_id, ty, contentStored co, p, q⟩ :: insertList cs (some q)

/-- The loop `for child in self.children: child.insert_to_db ...`. -/
def insertList : List ANode → Option Nat → List Row
  | [], _ => []
  | t :: ts, pid => insert_to_db t pid ++ insertList ts pid
end

/-- The `accel`/`content` store holding an encoded tree.  The rows come
out in document (pre-order) sequence, so a filter over them is already
sorted the way the queries' `ORDER BY pre_order` sorts; all theorems
below are stated at the level of membership / id sets. -/
def accelStore (root : Node) : List Row :=
  insert_to_db (annotate_traversal_orders root) none

/-- The `(id, type, content)` tuple the axis queries SELECT. -/
def sel (r : Row) : Nat × String × Option String := (r.id, r.type, r.content)

/-- `cur.fetchone()` of `SELECT ... WHERE id = %s`. -/
def findRow (rows : List Row) (i : Nat) : Option Row :=
  rows.find? fun r => r.id == i

/-- `WITH RECURSIVE` evaluation: the UNION of the anchor and of repeated
applications of the step, iterated `n` times (each iteration keeps the
accumulated set and adds the step's new ids). -/
def cteIter (step : List Nat → List Nat) (init : List Nat) : Nat → List Nat
  | 0 => init
  | n + 1 =>
      let prev := cteIter step init n
      prev ++ (step prev).filter fun x => decide (x ∉ prev)

/-- Anchor of the `ancestors` CTE (`axes.py` lines 24-28 and 385-389): the
parents of every author row whose content text equals the searched text. -/
def cteAnchor (rows : List Row) (c : String) : List Nat :=
  (rows.filter fun r =>
      r.type == "author" && r.content == some c && r.parent.isSome).filterMap
    Row.parent

/-- Recursive step of the `ancestors` CTE (`axes.py` lines 29-33): the
parents of every row whose id is already in the set. -/
def cteStep (rows : List Row) (s : List Nat) : List Nat :=
  (rows.filter fun r => decide (r.id ∈ s) && r.parent.isSome).filterMap
    Row.parent

/-- The id set computed by the `ancestors` CTE for author content `c`;
`rows.length` iterations reach the fixpoint on every store quantified over
below. -/
def ancestorsCTE (rows : List Row) (c : String) : List Nat :=
  cteIter (cteStep rows) (cteAnchor rows c) rows.length

/-- `ancestor_nodes` (`axes.py` lines 9-55), accel branch: the recursive
CTE anchored at all author rows carrying the given content. -/
def ancestor_nodes (rows : List Row) (node_content : String) :
    List (Nat × String × Option String) :=
  (rows.filter fun r => decide (r.id ∈ ancestorsCTE rows node_content)).map sel

/-- The non-author branch of `xpath_ancestor_window` (`axes.py` lines
403-411): the window scan `pre_order < pre(v) AND post_order > post(v)`. -/
def ancWindowScan (rows : List Row) (ctx : Row) :
    List (Nat × String × Option String) :=
  (rows.filter fun r => decide (r.pre < ctx.pre ∧ ctx.post < r.post)).map sel

/-- `xpath_ancestor_window` (`axes.py` lines 348-416), accel branch: fetch
the context row; author rows with truthy content go through the
content-anchored CTE, everything else through the window scan. -/
def xpath_ancestor_window_accel (rows : List Row) (cid : Nat) :
    List (Nat × String × Option String) :=
  match findRow rows cid with
  | none => []
  | some ctx =>
      match ctx.type == "author" && pyTruthy ctx.content, ctx.content with
      | true, some c => ancestor_nodes rows c
      | _, _ => ancWindowScan rows ctx

/-- `xpath_descendant_window` (`axes.py` lines 419-464), accel branch:
fetch the context row, then scan
`pre_order > pre(v) AND post_order < post(v)`. -/
def xpath_descendant_window_accel (rows : List Row) (cid : Nat) :
    List (Nat × String × Option String) :=
  match findRow rows cid with
  | none => []
  | some ctx =>
      (rows.filter fun r => decide (ctx.pre < r.pre ∧ r.post < ctx.post)).map sel

/-- Anchor of the `descendants` CTE (`axes.py` lines 74-75): the rows whose
parent is the context id. -/
def descAnchor (rows : List Row) (cid : Nat) : List Nat :=
  (rows.filter fun r => r.parent == some cid).map Row.id

/-- Recursive step of the `descendants` CTE (`axes.py` lines 76-79): the
rows whose parent is already in the set. -/
def descStep (rows : List Row) (s : List Nat) : List Nat :=
  (rows.filter fun r =>
      match r.parent with
      | some p => decide (p ∈ s)
      | none => false).map Row.id

/-- The id set computed by the `descendants` CTE. -/
def descendantsCTE (rows : List Row) (cid : Nat) : List Nat :=
  cteIter (descStep rows) (descAnchor rows cid) rows.length

/-- `descendant_nodes` (`axes.py` lines 58-106), accel branch: the
recursive CTE over child edges (`SELECT DISTINCT` — ids are unique in a
tree store). -/
def descendant_nodes (rows : List Row) (node_id : Nat) :
    List (Nat × String × Option String) :=
  (rows.filter fun r => decide (r.id ∈ descendantsCTE rows node_id)).map sel

/-- `siblings` (`axes.py` lines 109-208), accel branch: only `article`
context nodes get siblings, and only `article` siblings, compared on
`post_order`.  Python's `if not parent_id` is falsy both for NULL and
for 0. -/
def siblings (rows : List Row) (node_id : Nat) (direction : String) :
    List (Nat × String × Option String) :=
  match findRow rows node_id with
  | none => []
  | some ctx =>
      if ctx.type ≠ "article" then []
      else
        match ctx.parent with
        | none => []
        | some pid =>
            if pid = 0 then []
            else if direction = "following" then
              (rows.filter fun r =>
                  r.parent == some pid && r.type == "article" &&
                    decide (ctx.post < r.post)).map sel
            else
              (rows.filter fun r =>
                  r.parent == some pid && r.type == "article" &&
                    decide (r.post < ctx.post)).map sel

/-- `xpath_following_sibling_window` (`axes.py` lines 467-524), accel
branch: same-parent rows with larger `pre_order`; only for `article`
context nodes is the `article` type filter added. -/
def xpath_following_sibling_window_accel (rows : List Row) (cid : Nat) :
    List (Nat × String × Option String) :=
  match findRow rows cid with
  | none => []
  | some ctx =>
      match ctx.parent with
      | none => []
      | some pid =>
          if ctx.type == "article" then
            (rows.filter fun r =>
                r.parent == some pid && decide (ctx.pre < r.pre) &&
                  r.type == "article").map sel
          else
            (rows.filter fun r =>
                r.parent == some pid && decide (ctx.pre < r.pre)).map sel

/-- `xpath_preceding_sibling_window` (`axes.py` lines 527-584), accel
branch. -/
def xpath_preceding_sibling_window_accel (rows : List Row) (cid : Nat) :
    List (Nat × String × Option String) :=
  match findRow rows cid with
  | none => []
  | some ctx =>
      match ctx.parent with
      | none => []
      | some pid =>
          if ctx.type == "article" then
            (rows.filter fun r =>
                r.parent == some pid && decide (r.pre < ctx.pre) &&
                  r.type == "article").map sel
          else
            (rows.filter fun r =>
                r.parent == some pid && decide (r.pre < ctx.pre)).map sel

/-- One row of the original `Node` table (`db.py` lines 65-72). -/
structure NodeRow where
  id : Nat
  type : String
  content : Option String
deriving DecidableEq, Repr

/-- One row of the original `Edge` table (`db.py` lines 73-80). -/
structure EdgeRow where
  from_node : Nat
  to_node : Nat
  position : Nat
deriving DecidableEq, Repr

/-- The original `Node`/`Edge` store. -/
structure EdgeStore where
  nodes : List NodeRow
  edges : List EdgeRow
deriving Repr

/-- The database state an axis function can see: the `accel/content`
schema or the original `Node/Edge` schema.  The functions dispatch on the
`information_schema.tables` check for `accel` (`axes.py` lines 434-435). -/
inductive Store where
  | accel (rows : List Row)
  | edge (s : EdgeStore)

/-- Anchor of the edge-schema `descendants` CTE (`axes.py` line 260). -/
def edgeDescAnchor (s : EdgeStore) (cid : Nat) : List Nat :=
  (s.edges.filter fun e => e.from_node == cid).map EdgeRow.to_node

/-- Step of the edge-schema `descendants` CTE (`axes.py` lines 261-264). -/
def edgeDescStep (s : EdgeStore) (ds : List Nat) : List Nat :=
  (s.edges.filter fun e => decide (e.from_node ∈ ds)).map EdgeRow.to_node

/-- The id set of the edge-schema `descendants` CTE. -/
def edgeDescendantsCTE (s : EdgeStore) (cid : Nat) : List Nat :=
  cteIter (edgeDescStep s) (edgeDescAnchor s cid) s.edges.length

/-- `xpath_descendant_window_original` (`axes.py` lines 253-271). -/
def xpath_descendant_window_original (s : EdgeStore) (cid : Nat) :
    List (Nat × String × Option String) :=
  (s.nodes.filter fun n => decide (n.id ∈ edgeDescendantsCTE s cid)).map
    fun n => (n.id, n.type, n.content)

/-- `xpath_descendant_window` (`axes.py` lines 419-464) with its schema
dispatch: the accel branch runs the window scan, the edge branch falls
back to the recursive closure query. -/
def xpath_descendant_window : Store → Nat → List (Nat × String × Option String)
  | .accel rows, cid => xpath_descendant_window_accel rows cid
  | .edge s, cid => xpath_descendant_window_original s cid

/-- Step of the edge-schema `ancestors` CTE (`axes.py` lines 230-232 and
242-243). -/
def edgeAncStep (s : EdgeStore) (as' : List Nat) : List Nat :=
  (s.edges.filter fun e => decide (e.to_node ∈ as')).map EdgeRow.from_node

/-- Anchor of the author branch of the edge-schema `ancestors` CTE
(`axes.py` lines 228-229): parents of every author node with the given
content. -/
def edgeAuthorAnchor (s : EdgeStore) (c : String) : List Nat :=
  (s.edges.filter fun e =>
      s.nodes.any fun n =>
        n.id == e.to_node && n.type == "author" && n.content == some c).map
    EdgeRow.from_node

/-- Anchor of the non-author branch (`axes.py` line 241): the edge into
the context node. -/
def edgeIdAnchor (s : EdgeStore) (cid : Nat) : List Nat :=
  (s.edges.filter fun e => e.to_node == cid).map EdgeRow.from_node

/-- `xpath_ancestor_window_original` (`axes.py` lines 211-250): author
context nodes go through the content-anchored CTE over all equal-content
authors, everything else (including an absent id) through the CTE anchored
at the context id. -/
def xpath_ancestor_window_original (s : EdgeStore) (cid : Nat) :
    List (Nat × String × Option String) :=
  let idQuery :=
    (s.nodes.filter fun n =>
        decide (n.id ∈ cteIter (edgeAncStep s) (edgeIdAnchor s cid)
          s.edges.length)).map fun n => (n.id, n.type, n.content)
  match s.nodes.find? fun n => n.id == cid with
  | some ctx =>
      match ctx.type == "author" && pyTruthy ctx.content, ctx.content with
      | true, some c =>
          (s.nodes.filter fun n =>
              decide (n.id ∈ cteIter (edgeAncStep s) (edgeAuthorAnchor s c)
                s.edges.length)).map fun n => (n.id, n.type, n.content)
      | _, _ => idQuery
  | none => idQuery

/-- `xpath_ancestor_window` (`axes.py` lines 348-416) with its schema
dispatch. -/
def xpath_ancestor_window : Store → Nat → List (Nat × String × Option String)
  | .accel rows, cid => xpath_ancestor_window_accel rows cid
  | .edge s, cid => xpath_ancestor_window_original s cid

mutual
/-- `subtree_size` as computed by
`OptimizedWindowAccelerator._calculate_optimization_fields`
(`window_optimization.py` lines 86-96): 1 for the node itself plus the
children's subtree sizes. -/
def ANode.subtree_size : ANode → Nat
  | .mk _ _ _ _ cs => 1 + ANode.subtreeSizeList cs

def ANode.subtreeSizeList : List ANode → Nat
  | [] => 0
  | t :: ts => ANode.subtree_size t + ANode.subtreeSizeList ts
end

/-- One row of the `optimized_accel` table joined with its content
(`window_optimization.py` lines 34-53). -/
structure ORow where
  id : Nat
  type : String
  content : Option String
  parent : Option Nat
  pre : Nat
  post : Nat
  level : Nat
  subtree_size : Nat
deriving DecidableEq, Repr

mutual
/-- `_insert_optimized_node_recursive` (`window_optimization.py` lines
98-124) together with the `level`/`subtree_size` fields computed by
`_calculate_optimization_fields`: `db_id = post_order`, children one level
deeper. -/
def insertOptimized : ANode → Option Nat → Nat → List ORow
  | .mk ty co p q cs, parent_id, level =>
    ⟨q, ty, contentStored co, parent_id, p, q, level,
      ANode.subtree_size (.mk ty co p q cs)⟩ ::
      insertOptList cs (some q) (level + 1)

def insertOptList : List ANode → Option Nat → Nat → List ORow
  | [], _, _ => []
  | t :: ts, pid, level => insertOptimized t pid level ++ insertOptList ts pid level
end

/-- The `optimized_accel` store for an encoded tree (root level 0, as in
`insert_optimized_data`, `window_optimization.py` lines 78-84). -/
def optimizedStore (root : Node) : List ORow :=
  insertOptimized (annotate_traversal_orders root) none 0

/-- The `(id, type, content)` tuple the optimized queries SELECT. -/
def oSel (r : ORow) : Nat × String × Option String := (r.id, r.type, r.content)

/-- `OptimizedWindowAccelerator.xpath_descendant_optimized`
(`window_optimization.py` lines 126-177): leaf pruning when
`subtree_size <= 1`; for subtrees larger than 100 rows the window scan
additionally requires `level <= level(v) + 10`; otherwise the plain
window scan. -/
def xpath_descendant_optimized (rows : List ORow) (cid : Nat) :
    List (Nat × String × Option String) :=
  match rows.find? fun r => r.id == cid with
  | none => []
  | some ctx =>
      if ctx.subtree_size ≤ 1 then []
      else if 100 < ctx.subtree_size then
        (rows.filter fun r =>
            decide (ctx.pre < r.pre ∧ r.post < ctx.post ∧
              r.level ≤ ctx.level + 10)).map oSel
      else
        (rows.filter fun r =>
            decide (ctx.pre < r.pre ∧ r.post < ctx.post)).map oSel

/-- A chain tree of `n + 1` nodes, each node having one child (test
input). -/
def chainN : Nat → Node
  | 0 => Node.mk "n" none []
  | k + 1 => Node.mk "n" none [chainN k]

/-- The row built for node `u` under parent pointer `pp` (the body of
`insert_to_db`). -/
def rowOf (u : ANode) (pp : Option Nat) : Row :=
  ⟨u.post, pp, u.type, contentStored u.content, u.pre, u.post⟩

mutual
/-- Each subnode of a tree paired with the parent pointer `insert_to_db`
hands it (the insertion order of the rows). -/
def subP : ANode → Option Nat → List (ANode × Option Nat)
  | .mk ty co p q cs, par =>
    (ANode.mk ty co p q cs, par) :: subPList cs (some q)

def subPList : List ANode → Option Nat → List (ANode × Option Nat)
  | [], _ => []
  | t :: ts, par => subP t par ++ subPList ts par
end

theorem range'_append_1 (s m n : Nat) :
    List.range' s m ++ List.range' (s + m) n = List.range' s (m + n) := by
  have h := List.range'_append s m n 1
  rw [Nat.add_comm m n]
  simpa using h

theorem subList_cons (t : ANode) (ts : List ANode) :
    subList (t :: ts) = subAll t ++ subList ts := rfl

theorem postListL_cons (t : ANode) (ts : List ANode) :
    postListL (t :: ts) = postAll t ++ postListL ts := rfl

mutual
/-- Main invariant of the encoder: starting the counters at `p` and `q`,
the final counters advance by the tree size, the pre-order listing of the
annotated nodes carries the pre values `p, p+1, ...` and the post-order
listing carries the post values `q, q+1, ...`. -/
theorem calc_spec (t : Node) (p q : Nat) :
    (calculate_traversal_orders t p q).2.1 = p + t.size ∧
    (calculate_traversal_orders t p q).2.2 = q + t.size ∧
    (subAll (calculate_traversal_orders t p q).1).map ANode.pre
      = List.range' p t.size ∧
    (postAll (calculate_traversal_orders t p q).1).map ANode.post
      = List.range' q t.size := by
  match t with
  | .mk ty co cs =>
    obtain ⟨h1, h2, h3, h4⟩ := calcList_spec cs (p + 1) q
    simp only [calculate_traversal_orders, Node.size, subAll, postAll]
    refine ⟨by rw [h1]; omega, by rw [h2]; omega, ?_, ?_⟩
    · simp only [List.map_cons, ANode.pre, h3]
      rw [Nat.add_comm 1 (Node.sizeList cs), List.range'_succ]
    · simp only [List.map_append, List.map_cons, List.map_nil, ANode.post, h4]
      rw [Nat.add_comm 1 (Node.sizeList cs), List.range'_1_concat, h2]

theorem calcList_spec (ts : List Node) (p q : Nat) :
    (calcList ts p q).2.1 = p + Node.sizeList ts ∧
    (calcList ts p q).2.2 = q + Node.sizeList ts ∧
    (subList (calcList ts p q).1).map ANode.pre
      = List.range' p (Node.sizeList ts) ∧
    (postListL (calcList ts p q).1).map ANode.post
      = List.range' q (Node.sizeList ts) := by
  match ts with
  | [] => simp [calcList, Node.sizeList, subList, postListL]
  | t :: ts' =>
    obtain ⟨g1, g2, g3, g4⟩ := calc_spec t p q
    obtain ⟨h1, h2, h3, h4⟩ := calcList_spec ts'
      (calculate_traversal_orders t p q).2.1 (calculate_traversal_orders t p q).2.2
    simp only [calcList, Node.sizeList, subList_cons, postListL_cons,
      List.map_append, g1, g2] at *
    refine ⟨by rw [h1]; omega, by rw [h2]; omega, ?_, ?_⟩
    · rw [g3, h3]
      exact range'_append_1 p t.size (Node.sizeList ts')
    · rw [g4, h4]
      exact range'_append_1 q t.size (Node.sizeList ts')
end

mutual
/-- The post-order listing is a permutation of the pre-order listing. -/
theorem postAll_perm (t : ANode) : (postAll t).Perm (subAll t) := by
  match t with
  | .mk ty co p q cs =>
    have ih := postListL_perm cs
    simp only [postAll, subAll]
    exact (ih.append_right [ANode.mk ty co p q cs]).trans
      (List.perm_append_singleton _ _)

theorem postListL_perm (ts : List ANode) : (postListL ts).Perm (subList ts) := by
  match ts with
  | [] => exact List.Perm.refl _
  | t :: ts' => exact (postAll_perm t).append (postListL_perm ts')
end

theorem mem_postAll_iff {u t} : u ∈ postAll t ↔ u ∈ subAll t :=
  (postAll_perm t).mem_iff

theorem mem_postListL_iff {u ts} : u ∈ postListL ts ↔ u ∈ subList ts :=
  (postListL_perm ts).mem_iff

theorem mem_subAll_pre (t : Node) (p q : Nat) {u : ANode}
    (hu : u ∈ subAll (calculate_traversal_orders t p q).1) :
    p ≤ u.pre ∧ u.pre < p + t.size := by
  have h := (calc_spec t p q).2.2.1
  have hm : u.pre ∈ List.range' p t.size :=
    h ▸ List.mem_map_of_mem ANode.pre hu
  exact List.mem_range'_1.mp hm

theorem mem_subAll_post (t : Node) (p q : Nat) {u : ANode}
    (hu : u ∈ subAll (calculate_traversal_orders t p q).1) :
    q ≤ u.post ∧ u.post < q + t.size := by
  have h := (calc_spec t p q).2.2.2
  have hm : u.post ∈ List.range' q t.size :=
    h ▸ List.mem_map_of_mem ANode.post (mem_postAll_iff.mpr hu)
  exact List.mem_range'_1.mp hm

theorem mem_subList_pre (ts : List Node) (p q : Nat) {u : ANode}
    (hu : u ∈ subList (calcList ts p q).1) :
    p ≤ u.pre ∧ u.pre < p + Node.sizeList ts := by
  have h := (calcList_spec ts p q).2.2.1
  have hm : u.pre ∈ List.range' p (Node.sizeList ts) :=
    h ▸ List.mem_map_of_mem ANode.pre hu
  exact List.mem_range'_1.mp hm

theorem mem_subList_post (ts : List Node) (p q : Nat) {u : ANode}
    (hu : u ∈ subList (calcList ts p q).1) :
    q ≤ u.post ∧ u.post < q + Node.sizeList ts := by
  have h := (calcList_spec ts p q).2.2.2
  have hm : u.post ∈ List.range' q (Node.sizeList ts) :=
    h ▸ List.mem_map_of_mem ANode.post (mem_postListL_iff.mpr hu)
  exact List.mem_range'_1.mp hm

theorem subAll_pre_nodup (t : Node) (p q : Nat) :
    ((subAll (calculate_traversal_orders t p q).1).map ANode.pre).Nodup := by
  rw [(calc_spec t p q).2.2.1]; exact List.nodup_range' ..

theorem subAll_post_nodup (t : Node) (p q : Nat) :
    ((postAll (calculate_traversal_orders t p q).1).map ANode.post).Nodup := by
  rw [(calc_spec t p q).2.2.2]; exact List.nodup_range' ..

theorem subAll_nodup (t : Node) (p q : Nat) :
    (subAll (calculate_traversal_orders t p q).1).Nodup :=
  (subAll_pre_nodup t p q).of_map

theorem pre_inj (t : Node) (p q : Nat) {u v : ANode}
    (hu : u ∈ subAll (calculate_traversal_orders t p q).1)
    (hv : v ∈ subAll (calculate_traversal_orders t p q).1)
    (h : u.pre = v.pre) : u = v :=
  List.inj_on_of_nodup_map (subAll_pre_nodup t p q) hu hv h

theorem post_inj (t : Node) (p q : Nat) {u v : ANode}
    (hu : u ∈ subAll (calculate_traversal_orders t p q).1)
    (hv : v ∈ subAll (calculate_traversal_orders t p q).1)
    (h : u.post = v.post) : u = v :=
  List.inj_on_of_nodup_map (subAll_post_nodup t p q)
    (mem_postAll_iff.mpr hu) (mem_postAll_iff.mpr hv) h

theorem calc_root_pre (t : Node) (p q : Nat) :
    (calculate_traversal_orders t p q).1.pre = p := by cases t; rfl

theorem calc_root_children (t : Node) (p q : Nat) :
    (calculate_traversal_orders t p q).1.children
      = (calcList t.children (p + 1) q).1 := by cases t; rfl

theorem calc_root_post (t : Node) (p q : Nat) :
    (calculate_traversal_orders t p q).1.post + 1 = q + t.size := by
  cases t with
  | mk ty co cs =>
    have h := (calcList_spec cs (p + 1) q).2.1
    simp only [calculate_traversal_orders, ANode.post, Node.size]
    rw [h]; omega

theorem subAll_eq (a : ANode) : subAll a = a :: subList a.children := by
  cases a; rfl

theorem size_pos (t : Node) : 1 ≤ t.size := by
  cases t with
  | mk ty co cs => simp only [Node.size]; omega

theorem size_children (t : Node) : t.size = 1 + Node.sizeList t.children := by
  cases t; rfl

/-- Every strict subnode's `[pre, post]` interval is strictly inside the
root's interval. -/
theorem nest_root (t : Node) (p q : Nat) {u : ANode}
    (hu : u ∈ subList (calculate_traversal_orders t p q).1.children) :
    (calculate_traversal_orders t p q).1.pre < u.pre ∧
    u.post < (calculate_traversal_orders t p q).1.post := by
  rw [calc_root_children] at hu
  have h1 := mem_subList_pre t.children (p + 1) q hu
  have h2 := mem_subList_post t.children (p + 1) q hu
  have h3 := calc_root_pre t p q
  have h4 := calc_root_post t p q
  have h5 := size_children t
  omega

mutual
/-- Every subnode of an encoder output is itself an encoder output (at
the counter values current when the traversal entered it). -/
theorem subAll_src (t : Node) (p q : Nat) :
    ∀ a ∈ subAll (calculate_traversal_orders t p q).1,
      ∃ t' p' q', a = (calculate_traversal_orders t' p' q').1 := by
  match t with
  | .mk ty co cs =>
    intro a ha
    rw [subAll_eq] at ha
    rcases List.mem_cons.mp ha with h | h
    · exact ⟨.mk ty co cs, p, q, h⟩
    · rw [calc_root_children] at h
      exact subList_src cs (p + 1) q a h

theorem subList_src (ts : List Node) (p q : Nat) :
    ∀ a ∈ subList (calcList ts p q).1,
      ∃ t' p' q', a = (calculate_traversal_orders t' p' q').1 := by
  match ts with
  | [] => intro a ha; simp [calcList, subList] at ha
  | t :: ts' =>
    intro a ha
    simp only [calcList, subList_cons] at ha
    rcases List.mem_append.mp ha with h | h
    · exact subAll_src t p q a h
    · exact subList_src ts'
        (calculate_traversal_orders t p q).2.1
        (calculate_traversal_orders t p q).2.2 a h
end

/-- Nesting, at every node of the tree: a node's interval strictly
contains the interval of everything strictly below it. -/
theorem nest_all (t : Node) (p q : Nat) {a u : ANode}
    (ha : a ∈ subAll (calculate_traversal_orders t p q).1)
    (hu : strictBelow a u) :
    a.pre < u.pre ∧ u.post < a.post := by
  obtain ⟨t', p', q', rfl⟩ := subAll_src t p q a ha
  exact nest_root t' p' q' hu

mutual
/-- Two nodes of the tree, neither below the other: their pre orders and
post orders compare the same way (their intervals are disjoint). -/
theorem agree_tree (t : Node) (p q : Nat) :
    ∀ u ∈ subAll (calculate_traversal_orders t p q).1,
    ∀ w ∈ subAll (calculate_traversal_orders t p q).1,
      ¬strictBelow u w → ¬strictBelow w u → u ≠ w →
      (u.pre < w.pre ↔ u.post < w.post) := by
  match t with
  | .mk ty co cs =>
    intro u hu w hw hnuw hnwu hne
    rw [subAll_eq] at hu hw
    rcases List.mem_cons.mp hu with h | h
    · rcases List.mem_cons.mp hw with h' | h'
      · exact absurd (h.trans h'.symm) hne
      · exfalso
        apply hnuw
        rw [h]
        exact h'
    · rcases List.mem_cons.mp hw with h' | h'
      · exfalso
        apply hnwu
        rw [h']
        exact h
      · rw [calc_root_children] at h h'
        exact agree_list cs (p + 1) q u h w h' hnuw hnwu hne

theorem agree_list (ts : List Node) (p q : Nat) :
    ∀ u ∈ subList (calcList ts p q).1,
    ∀ w ∈ subList (calcList ts p q).1,
      ¬strictBelow u w → ¬strictBelow w u → u ≠ w →
      (u.pre < w.pre ↔ u.post < w.post) := by
  match ts with
  | [] => intro u hu; simp [calcList, subList] at hu
  | t :: ts' =>
    intro u hu w hw hnuw hnwu hne
    simp only [calcList, subList_cons] at hu hw
    have c1 := (calc_spec t p q).1
    have c2 := (calc_spec t p q).2.1
    rcases List.mem_append.mp hu with h | h
    · rcases List.mem_append.mp hw with h' | h'
      · exact agree_tree t p q u h w h' hnuw hnwu hne
      · have b1 := mem_subAll_pre t p q h
        have b2 := mem_subAll_post t p q h
        have b3 := mem_subList_pre ts' _ _ h'
        have b4 := mem_subList_post ts' _ _ h'
        rw [c1] at b3; rw [c2] at b4
        constructor <;> intro <;> omega
    · rcases List.mem_append.mp hw with h' | h'
      · have b1 := mem_subAll_pre t p q h'
        have b2 := mem_subAll_post t p q h'
        have b3 := mem_subList_pre ts' _ _ h
        have b4 := mem_subList_post ts' _ _ h
        rw [c1] at b3; rw [c2] at b4
        constructor <;> intro <;> omega
      · exact agree_list ts' _ _ u h w h' hnuw hnwu hne
end

/-- The region-encoding characterization of strict ancestry. -/
theorem below_iff_window (t : Node) (p q : Nat) {a v : ANode}
    (ha : a ∈ subAll (calculate_traversal_orders t p q).1)
    (hv : v ∈ subAll (calculate_traversal_orders t p q).1)
    (hne : a ≠ v) :
    strictBelow a v ↔ (a.pre < v.pre ∧ v.post < a.post) := by
  constructor
  · exact fun h => nest_all t p q ha h
  · intro ⟨h1, h2⟩
    by_contra hnav
    by_cases hnva : strictBelow v a
    · have := nest_all t p q hv hnva
      omega
    · have hiff := agree_tree t p q a ha v hv hnav hnva hne
      omega

/-- **C1**: in every tree annotated by the encoder, for any two distinct
nodes `a`, `v`: `a` is a proper ancestor of `v` iff
`pre_order a < pre_order v` and `post_order a > post_order v`; and two
distinct nodes are either strictly nested (one an ancestor of the other)
or their `[pre, post]` intervals lie strictly on one side of each other —
never partially overlapping. -/
theorem claim_c1_ancestor_iff_window (root : Node) (a v : ANode)
    (ha : a ∈ subAll (annotate_traversal_orders root))
    (hv : v ∈ subAll (annotate_traversal_orders root))
    (hne : a ≠ v) :
    (strictBelow a v ↔ (a.pre < v.pre ∧ a.post > v.post)) ∧
    (strictBelow v a ↔ (v.pre < a.pre ∧ v.post > a.post)) ∧
    (¬strictBelow a v → ¬strictBelow v a →
      ((a.pre < v.pre ∧ a.post < v.post) ∨
       (v.pre < a.pre ∧ v.post < a.post))) := by
  unfold annotate_traversal_orders at ha hv
  refine ⟨below_iff_window root 1 1 ha hv hne,
          below_iff_window root 1 1 hv ha hne.symm, ?_⟩
  intro h1 h2
  have hiff := agree_tree root 1 1 a ha v hv h1 h2 hne
  have hpre : a.pre ≠ v.pre := fun h => hne (pre_inj root 1 1 ha hv h)
  have hpost : a.post ≠ v.post := fun h => hne (post_inj root 1 1 ha hv h)
  rcases Nat.lt_or_ge a.pre v.pre with h | h
  · left; exact ⟨h, hiff.mp h⟩
  · right
    have h' : v.pre < a.pre := by omega
    have : ¬a.post < v.post := fun hc => absurd (hiff.mpr hc) (by omega)
    exact ⟨h', by omega⟩

theorem claim_c1_witness :
    (ANode.mk "r" none 1 3 [ANode.mk "a" none 2 1 [], ANode.mk "b" none 3 2 []])
      ∈ subAll (annotate_traversal_orders
        (Node.mk "r" none [Node.mk "a" none [], Node.mk "b" none []])) ∧
    (ANode.mk "a" none 2 1 [])
      ∈ subAll (annotate_traversal_orders
        (Node.mk "r" none [Node.mk "a" none [], Node.mk "b" none []])) ∧
    (ANode.mk "r" none 1 3 [ANode.mk "a" none 2 1 [], ANode.mk "b" none 3 2 []])
      ≠ (ANode.mk "a" none 2 1 []) ∧
    ((strictBelow
        (ANode.mk "r" none 1 3 [ANode.mk "a" none 2 1 [], ANode.mk "b" none 3 2 []])
        (ANode.mk "a" none 2 1 []) ↔
      ((ANode.mk "r" none 1 3 [ANode.mk "a" none 2 1 [], ANode.mk "b" none 3 2 []]).pre
          < (ANode.mk "a" none 2 1 []).pre ∧
       (ANode.mk "r" none 1 3 [ANode.mk "a" none 2 1 [], ANode.mk "b" none 3 2 []]).post
          > (ANode.mk "a" none 2 1 []).post)) ∧
     (strictBelow (ANode.mk "a" none 2 1 [])
        (ANode.mk "r" none 1 3 [ANode.mk "a" none 2 1 [], ANode.mk "b" none 3 2 []]) ↔
      ((ANode.mk "a" none 2 1 []).pre
          < (ANode.mk "r" none 1 3 [ANode.mk "a" none 2 1 [], ANode.mk "b" none 3 2 []]).pre ∧
       (ANode.mk "a" none 2 1 []).post
          > (ANode.mk "r" none 1 3 [ANode.mk "a" none 2 1 [], ANode.mk "b" none 3 2 []]).post)) ∧
     (¬strictBelow
        (ANode.mk "r" none 1 3 [ANode.mk "a" none 2 1 [], ANode.mk "b" none 3 2 []])
        (ANode.mk "a" none 2 1 []) →
      ¬strictBelow (ANode.mk "a" none 2 1 [])
        (ANode.mk "r" none 1 3 [ANode.mk "a" none 2 1 [], ANode.mk "b" none 3 2 []]) →
      (((ANode.mk "r" none 1 3 [ANode.mk "a" none 2 1 [], ANode.mk "b" none 3 2 []]).pre
          < (ANode.mk "a" none 2 1 []).pre ∧
        (ANode.mk "r" none 1 3 [ANode.mk "a" none 2 1 [], ANode.mk "b" none 3 2 []]).post
          < (ANode.mk "a" none 2 1 []).post) ∨
       ((ANode.mk "a" none 2 1 []).pre
          < (ANode.mk "r" none 1 3 [ANode.mk "a" none 2 1 [], ANode.mk "b" none 3 2 []]).pre ∧
        (ANode.mk "a" none 2 1 []).post
          < (ANode.mk "r" none 1 3 [ANode.mk "a" none 2 1 [], ANode.mk "b" none 3 2 []]).post)))) :=
  ⟨by decide, by decide, by decide,
   claim_c1_ancestor_iff_window
     (Node.mk "r" none [Node.mk "a" none [], Node.mk "b" none []])
     (ANode.mk "r" none 1 3 [ANode.mk "a" none 2 1 [], ANode.mk "b" none 3 2 []])
     (ANode.mk "a" none 2 1 [])
     (by decide) (by decide) (by decide)⟩

/-- **C3**: with both counters starting at 1, the encoder's pre values
(taken in traversal-entry order) are exactly `1, ..., N` and the post
values are a permutation of `1, ..., N`; no two nodes share a pre or a
post value; and a single-node tree receives pre = 1 and post = 1. -/
theorem claim_c3_permutation (root : Node) :
    ((subAll (annotate_traversal_orders root)).map ANode.pre
        = List.range' 1 root.size) ∧
    ((subAll (annotate_traversal_orders root)).map ANode.post).Perm
        (List.range' 1 root.size) ∧
    ((subAll (annotate_traversal_orders root)).map ANode.pre).Nodup ∧
    ((subAll (annotate_traversal_orders root)).map ANode.post).Nodup ∧
    (root.children = [] →
      (annotate_traversal_orders root).pre = 1 ∧
      (annotate_traversal_orders root).post = 1) := by
  unfold annotate_traversal_orders
  have h := calc_spec root 1 1
  have hperm :
      ((subAll (calculate_traversal_orders root 1 1).1).map ANode.post).Perm
        (List.range' 1 root.size) :=
    h.2.2.2 ▸ ((postAll_perm _).map ANode.post).symm
  refine ⟨h.2.2.1, hperm, ?_, hperm.nodup_iff.mpr (List.nodup_range' ..), ?_⟩
  · rw [h.2.2.1]; exact List.nodup_range' ..
  · intro hc
    cases root with
    | mk ty co cs =>
      simp only [Node.children] at hc
      subst hc
      exact ⟨rfl, rfl⟩

theorem claim_c3_witness :
    (annotate_traversal_orders (Node.mk "bib" none [])).pre = 1 ∧
    (annotate_traversal_orders (Node.mk "bib" none [])).post = 1 ∧
    ((subAll (annotate_traversal_orders (Node.mk "bib" none []))).map ANode.pre
        = List.range' 1 (Node.mk "bib" none []).size) := by
  have h := claim_c3_permutation (Node.mk "bib" none [])
  exact ⟨(h.2.2.2.2 rfl).1, (h.2.2.2.2 rfl).2, h.1⟩

/-- **C4**: on the 4-node chain `root -> A -> B -> C` the encoder assigns
pre-orders root=1, A=2, B=3, C=4 and post-orders C=1, B=2, A=3, root=4
(node ids in the store are the post orders); the range-strategy ancestor
query on C (id 1) returns exactly root, A, B (ids 4, 3, 2) and the
descendant query on root (id 4) returns exactly A, B, C (ids 3, 2, 1). -/
theorem claim_c4_chain :
    ((subAll (annotate_traversal_orders
        (Node.mk "root" none [Node.mk "A" none [Node.mk "B" none
          [Node.mk "C" none []]]]))).map (fun u => (u.type, u.pre, u.post))
      = [("root", 1, 4), ("A", 2, 3), ("B", 3, 2), ("C", 4, 1)]) ∧
    (xpath_ancestor_window (.accel (accelStore
        (Node.mk "root" none [Node.mk "A" none [Node.mk "B" none
          [Node.mk "C" none []]]]))) 1
      = [(4, "root", none), (3, "A", none), (2, "B", none)]) ∧
    (xpath_descendant_window (.accel (accelStore
        (Node.mk "root" none [Node.mk "A" none [Node.mk "B" none
          [Node.mk "C" none []]]]))) 4
      = [(3, "A", none), (2, "B", none), (1, "C", none)]) := by
  refine ⟨?_, ?_, ?_⟩ <;> rfl

theorem findRow_eq_none {rows : List Row} {cid : Nat}
    (h : cid ∉ rows.map Row.id) : findRow rows cid = none := by
  apply List.find?_eq_none.mpr
  intro r hr hc
  exact h (beq_iff_eq.mp hc ▸ List.mem_map_of_mem Row.id hr)

/-- **C8**: a node id absent from the store yields the empty result (not
an error) for the ancestor, descendant, following-sibling and
preceding-sibling window queries, the sibling closure query and the
bounded evaluator's descendant query. -/
theorem claim_c8_unknown_id (rows : List Row) (orows : List ORow)
    (cid : Nat) (d : String)
    (h : cid ∉ rows.map Row.id) (ho : cid ∉ orows.map ORow.id) :
    xpath_ancestor_window_accel rows cid = [] ∧
    xpath_descendant_window_accel rows cid = [] ∧
    xpath_following_sibling_window_accel rows cid = [] ∧
    xpath_preceding_sibling_window_accel rows cid = [] ∧
    siblings rows cid d = [] ∧
    xpath_descendant_optimized orows cid = [] := by
  have hf : findRow rows cid = none := findRow_eq_none h
  have hfo : (orows.find? fun r => r.id == cid) = none := by
    apply List.find?_eq_none.mpr
    intro r hr hc
    exact ho (beq_iff_eq.mp hc ▸ List.mem_map_of_mem ORow.id hr)
  refine ⟨?_, ?_, ?_, ?_, ?_, ?_⟩ <;>
    simp [xpath_ancestor_window_accel, xpath_descendant_window_accel,
      xpath_following_sibling_window_accel,
      xpath_preceding_sibling_window_accel, siblings,
      xpath_descendant_optimized, hf, hfo]

theorem claim_c8_witness :
    (99 ∉ (accelStore (Node.mk "bib" none [])).map Row.id) ∧
    (99 ∉ (optimizedStore (Node.mk "bib" none [])).map ORow.id) ∧
    xpath_ancestor_window_accel (accelStore (Node.mk "bib" none [])) 99 = [] ∧
    xpath_descendant_window_accel (accelStore (Node.mk "bib" none [])) 99 = [] ∧
    xpath_following_sibling_window_accel
      (accelStore (Node.mk "bib" none [])) 99 = [] ∧
    xpath_preceding_sibling_window_accel
      (accelStore (Node.mk "bib" none [])) 99 = [] ∧
    siblings (accelStore (Node.mk "bib" none [])) 99 "following" = [] ∧
    xpath_descendant_optimized (optimizedStore (Node.mk "bib" none [])) 99 = [] := by
  have h := claim_c8_unknown_id (accelStore (Node.mk "bib" none []))
    (optimizedStore (Node.mk "bib" none [])) 99 "following"
    (by decide) (by decide)
  exact ⟨by decide, by decide, h.1, h.2.1, h.2.2.1, h.2.2.2.1, h.2.2.2.2.1,
    h.2.2.2.2.2⟩

/-- **C9**: in the bounded evaluator, a context row whose precomputed
`subtree_size` is at most 1 (a leaf) makes the descendant query return
empty immediately, before any range scan. -/
theorem claim_c9_leaf_pruning (orows : List ORow) (cid : Nat) (ctx : ORow)
    (hf : (orows.find? fun r => r.id == cid) = some ctx)
    (hs : ctx.subtree_size ≤ 1) :
    xpath_descendant_optimized orows cid = [] := by
  simp [xpath_descendant_optimized, hf, hs]

theorem claim_c9_witness :
    ((optimizedStore (Node.mk "bib" none [])).find? fun r => r.id == 1)
      = some ⟨1, "bib", none, none, 1, 1, 0, 1⟩ ∧
    (⟨1, "bib", none, none, 1, 1, 0, 1⟩ : ORow).subtree_size ≤ 1 ∧
    xpath_descendant_optimized (optimizedStore (Node.mk "bib" none [])) 1 = [] :=
  ⟨by decide, by decide,
   claim_c9_leaf_pruning (optimizedStore (Node.mk "bib" none [])) 1
     ⟨1, "bib", none, none, 1, 1, 0, 1⟩ (by decide) (by decide)⟩

/-- **C10** fails as stated: on a store holding a root of type `bib` with
two children of type `paper`, the context node id 1 (the first `paper`
child) is not an `article`, yet the range-variant following-sibling query
returns its sibling (id 2) instead of the empty result the claim
predicts; the closure-variant `siblings` does return empty. -/
theorem claim_c10_counterexample :
    xpath_following_sibling_window_accel
      (accelStore (Node.mk "bib" none
        [Node.mk "paper" none [], Node.mk "paper" none []])) 1
      = [(2, "paper", none)] ∧
    siblings
      (accelStore (Node.mk "bib" none
        [Node.mk "paper" none [], Node.mk "paper" none []])) 1 "following"
      = [] := by
  refine ⟨?_, ?_⟩ <;> rfl

/-- **C10 (amended)**: `siblings` returns the empty result for every
non-`article` context node; the window variants instead return all
same-parent siblings (no type restriction) for non-`article` context
nodes, and restrict to `article`-typed siblings exactly when the context
node is an `article` — the type restriction is hard-coded in both. -/
theorem claim_c10_amended (rows : List Row) (cid : Nat) (ctx : Row)
    (hf : findRow rows cid = some ctx) :
    (ctx.type ≠ "article" →
      siblings rows cid "following" = [] ∧
      siblings rows cid "preceding" = []) ∧
    (ctx.type ≠ "article" → ∀ pid, ctx.parent = some pid →
      ∀ x, x ∈ xpath_following_sibling_window_accel rows cid ↔
        ∃ r ∈ rows, r.parent = some pid ∧ ctx.pre < r.pre ∧ x = sel r) ∧
    (ctx.type = "article" →
      (∀ x ∈ xpath_following_sibling_window_accel rows cid,
        x.2.1 = "article") ∧
      (∀ x ∈ xpath_preceding_sibling_window_accel rows cid,
        x.2.1 = "article") ∧
      (∀ x ∈ siblings rows cid "following", x.2.1 = "article") ∧
      (∀ x ∈ siblings rows cid "preceding", x.2.1 = "article")) := by
  refine ⟨?_, ?_, ?_⟩
  · intro h
    constructor <;> simp [siblings, hf, h]
  · intro h pid hp x
    have hb : (ctx.type == "article") = false := by
      simpa using h
    simp only [xpath_following_sibling_window_accel, hf, hp, hb,
      Bool.false_eq_true, if_false, List.mem_map, List.mem_filter,
      Bool.and_eq_true, beq_iff_eq, decide_eq_true_eq]
    constructor
    · rintro ⟨r, ⟨hr, hpr, hlt⟩, rfl⟩
      exact ⟨r, hr, hpr, hlt, rfl⟩
    · rintro ⟨r, hr, hpr, hlt, rfl⟩
      exact ⟨r, ⟨hr, hpr, hlt⟩, rfl⟩
  · intro h
    have hb : (ctx.type == "article") = true := by simpa using h
    refine ⟨?_, ?_, ?_, ?_⟩
    · intro x hx
      rcases hpar : ctx.parent with _ | pid
      · simp [xpath_following_sibling_window_accel, hf, hpar] at hx
      · simp only [xpath_following_sibling_window_accel, hf, hpar] at hx
        rw [if_pos hb] at hx
        simp only [List.mem_map, List.mem_filter, Bool.and_eq_true,
          beq_iff_eq, decide_eq_true_eq] at hx
        obtain ⟨r, ⟨hr, ⟨hp2, hlt⟩, hty⟩, rfl⟩ := hx
        exact hty
    · intro x hx
      rcases hpar : ctx.parent with _ | pid
      · simp [xpath_preceding_sibling_window_accel, hf, hpar] at hx
      · simp only [xpath_preceding_sibling_window_accel, hf, hpar] at hx
        rw [if_pos hb] at hx
        simp only [List.mem_map, List.mem_filter, Bool.and_eq_true,
          beq_iff_eq, decide_eq_true_eq] at hx
        obtain ⟨r, ⟨hr, ⟨hp2, hlt⟩, hty⟩, rfl⟩ := hx
        exact hty
    · intro x hx
      rcases hpar : ctx.parent with _ | pid
      · simp [siblings, hf, hpar, h] at hx
      · simp only [siblings, hf, hpar] at hx
        rw [if_neg (by simp [h])] at hx
        by_cases hz : pid = 0
        · rw [if_pos hz] at hx; simp at hx
        · rw [if_neg hz, if_pos trivial] at hx
          simp only [List.mem_map, List.mem_filter, Bool.and_eq_true,
            beq_iff_eq, decide_eq_true_eq] at hx
          obtain ⟨r, ⟨hr, ⟨hp2, hty⟩, hpost⟩, rfl⟩ := hx
          exact hty
    · intro x hx
      rcases hpar : ctx.parent with _ | pid
      · simp [siblings, hf, hpar, h] at hx
      · simp only [siblings, hf, hpar] at hx
        rw [if_neg (by simp [h])] at hx
        by_cases hz : pid = 0
        · rw [if_pos hz] at hx; simp at hx
        · rw [if_neg hz, if_neg (by decide)] at hx
          simp only [List.mem_map, List.mem_filter, Bool.and_eq_true,
            beq_iff_eq, decide_eq_true_eq] at hx
          obtain ⟨r, ⟨hr, ⟨hp2, hty⟩, hpost⟩, rfl⟩ := hx
          exact hty

theorem claim_c10_witness :
    siblings (accelStore (Node.mk "bib" none
      [Node.mk "paper" none [], Node.mk "paper" none []])) 1 "following" = [] ∧
    siblings (accelStore (Node.mk "bib" none
      [Node.mk "paper" none [], Node.mk "paper" none []])) 1 "preceding" = [] :=
  (claim_c10_amended
    (accelStore (Node.mk "bib" none
      [Node.mk "paper" none [], Node.mk "paper" none []]))
    1 ⟨1, some 3, "paper", none, 2, 1⟩ (by decide)).1 (by decide)

mutual
/-- `insert_to_db` writes exactly one row per subnode, in `subP` order. -/
theorem insert_to_db_eq (a : ANode) (par : Option Nat) :
    insert_to_db a par = (subP a par).map fun x => rowOf x.1 x.2 := by
  match a with
  | .mk ty co p q cs =>
    have ih := insertList_eq cs (some q)
    simp only [insert_to_db, subP, List.map_cons, ih]
    rfl

theorem insertList_eq (ts : List ANode) (par : Option Nat) :
    insertList ts par = (subPList ts par).map fun x => rowOf x.1 x.2 := by
  match ts with
  | [] => rfl
  | t :: ts' =>
    simp only [insertList, subPList, List.map_append,
      insert_to_db_eq t par, insertList_eq ts' par]
end

mutual
/-- The nodes listed by `subP` are exactly the subnodes, in order. -/
theorem subP_fst (a : ANode) (par : Option Nat) :
    (subP a par).map Prod.fst = subAll a := by
  match a with
  | .mk ty co p q cs =>
    simp only [subP, List.map_cons, subPList_fst cs (some q)]
    rfl

theorem subPList_fst (ts : List ANode) (par : Option Nat) :
    (subPList ts par).map Prod.fst = subList ts := by
  match ts with
  | [] => rfl
  | t :: ts' =>
    simp only [subPList, List.map_append, subP_fst t par,
      subPList_fst ts' par, subList_cons]
end

mutual
/-- Membership in `subP`: a pair is either the root with the supplied
parent pointer, or a child of some subnode `w` with pointer `w.post`. -/
theorem subP_mem_iff (a : ANode) (par : Option Nat) (u : ANode)
    (pp : Option Nat) :
    (u, pp) ∈ subP a par ↔
      (u = a ∧ pp = par) ∨
      ∃ w, w ∈ subAll a ∧ u ∈ w.children ∧ pp = some w.post := by
  match a with
  | .mk ty co p q cs =>
    have ih := subPList_mem_iff cs (some q) u pp
    simp only [subP, List.mem_cons, Prod.mk.injEq, ih, subAll_eq,
      ANode.children, ANode.post]
    constructor
    · rintro (⟨h1, h2⟩ | (⟨h1, h2⟩ | ⟨w, hw, hu, hpp⟩))
      · exact Or.inl ⟨h1, h2⟩
      · exact Or.inr ⟨ANode.mk ty co p q cs, Or.inl rfl, h1, h2⟩
      · exact Or.inr ⟨w, Or.inr hw, hu, hpp⟩
    · rintro (⟨h1, h2⟩ | ⟨w, hw | hw, hu, hpp⟩)
      · exact Or.inl ⟨h1, h2⟩
      · subst hw; exact Or.inr (Or.inl ⟨hu, hpp⟩)
      · exact Or.inr (Or.inr ⟨w, hw, hu, hpp⟩)

theorem subPList_mem_iff (ts : List ANode) (par : Option Nat) (u : ANode)
    (pp : Option Nat) :
    (u, pp) ∈ subPList ts par ↔
      (u ∈ ts ∧ pp = par) ∨
      ∃ w, w ∈ subList ts ∧ u ∈ w.children ∧ pp = some w.post := by
  match ts with
  | [] => simp [subPList, subList]
  | t :: ts' =>
    have ih1 := subP_mem_iff t par u pp
    have ih2 := subPList_mem_iff ts' par u pp
    simp only [subPList, List.mem_append, ih1, ih2, subList_cons,
      List.mem_cons]
    constructor
    · rintro ((⟨h1, h2⟩ | ⟨w, hw, hu, hpp⟩) | (⟨h1, h2⟩ | ⟨w, hw, hu, hpp⟩))
      · exact Or.inl ⟨Or.inl h1, h2⟩
      · exact Or.inr ⟨w, Or.inl hw, hu, hpp⟩
      · exact Or.inl ⟨Or.inr h1, h2⟩
      · exact Or.inr ⟨w, Or.inr hw, hu, hpp⟩
    · rintro (⟨h1 | h1, h2⟩ | ⟨w, hw | hw, hu, hpp⟩)
      · exact Or.inl (Or.inl ⟨h1, h2⟩)
      · exact Or.inr (Or.inl ⟨h1, h2⟩)
      · exact Or.inl (Or.inr ⟨w, hw, hu, hpp⟩)
      · exact Or.inr (Or.inr ⟨w, hw, hu, hpp⟩)
end

/-- Row membership in terms of `subP`. -/
theorem mem_insert_to_db {a : ANode} {par : Option Nat} {r : Row} :
    r ∈ insert_to_db a par ↔
      ∃ u pp, (u, pp) ∈ subP a par ∧ rowOf u pp = r := by
  rw [insert_to_db_eq]
  constructor
  · intro h
    obtain ⟨⟨u, pp⟩, hmem, heq⟩ := List.mem_map.mp h
    exact ⟨u, pp, hmem, heq⟩
  · rintro ⟨u, pp, hmem, heq⟩
    exact List.mem_map.mpr ⟨(u, pp), hmem, heq⟩

/-- In a list of pairs with distinct first components, the second
component is determined by the first. -/
theorem nodup_fst_unique {α β : Type} {l : List (α × β)}
    (h : (l.map Prod.fst).Nodup) {a : α} {b c : β}
    (hb : (a, b) ∈ l) (hc : (a, c) ∈ l) : b = c := by
  induction l with
  | nil => cases hb
  | cons x xs ih =>
    rw [List.map_cons, List.nodup_cons] at h
    rcases List.mem_cons.mp hb with h1 | h1 <;>
      rcases List.mem_cons.mp hc with h2 | h2
    · rw [← h1] at h2
      exact (congrArg Prod.snd h2).symm
    · exfalso
      apply h.1
      have ha : a = x.1 := congrArg Prod.fst h1
      have hm : a ∈ xs.map Prod.fst := List.mem_map_of_mem Prod.fst h2
      rwa [ha] at hm
    · exfalso
      apply h.1
      have ha : a = x.1 := congrArg Prod.fst h2
      have hm : a ∈ xs.map Prod.fst := List.mem_map_of_mem Prod.fst h1
      rwa [ha] at hm
    · exact ih h.2 h1 h2

theorem subAll_map_post_nodup (t : Node) (p q : Nat) :
    ((subAll (calculate_traversal_orders t p q).1).map ANode.post).Nodup :=
  (((postAll_perm (calculate_traversal_orders t p q).1).map
      ANode.post).nodup_iff).mp (subAll_post_nodup t p q)

theorem accelStore_ids (root : Node) :
    (accelStore root).map Row.id
      = (subAll (annotate_traversal_orders root)).map ANode.post := by
  rw [accelStore, insert_to_db_eq, List.map_map,
    ← subP_fst (annotate_traversal_orders root) none, List.map_map]
  rfl

theorem accelStore_ids_nodup (root : Node) :
    ((accelStore root).map Row.id).Nodup := by
  rw [accelStore_ids]
  exact subAll_map_post_nodup root 1 1

theorem subAll_length (t : Node) (p q : Nat) :
    (subAll (calculate_traversal_orders t p q).1).length = t.size := by
  have h := congrArg List.length (calc_spec t p q).2.2.1
  rwa [List.length_map, List.length_range'] at h

theorem accelStore_length (root : Node) :
    (accelStore root).length = root.size := by
  have h := congrArg List.length (accelStore_ids root)
  rw [List.length_map, List.length_map] at h
  rw [h]
  exact subAll_length root 1 1

theorem subP_root_nodup (root : Node) :
    ((subP (annotate_traversal_orders root) none).map Prod.fst).Nodup := by
  rw [subP_fst]
  exact subAll_nodup root 1 1

/-- A node's parent pointer in the store is unique. -/
theorem subP_parent_unique (root : Node) {u : ANode} {pp pp' : Option Nat}
    (h : (u, pp) ∈ subP (annotate_traversal_orders root) none)
    (h' : (u, pp') ∈ subP (annotate_traversal_orders root) none) :
    pp = pp' :=
  nodup_fst_unique (subP_root_nodup root) h h'

theorem subP_mem_subAll (root : Node) {u : ANode} {pp : Option Nat}
    (h : (u, pp) ∈ subP (annotate_traversal_orders root) none) :
    u ∈ subAll (annotate_traversal_orders root) := by
  rw [← subP_fst (annotate_traversal_orders root) none]
  exact List.mem_map_of_mem Prod.fst h

theorem subP_root (root : Node) :
    (annotate_traversal_orders root, (none : Option Nat))
      ∈ subP (annotate_traversal_orders root) none :=
  (subP_mem_iff ..).mpr (Or.inl ⟨rfl, rfl⟩)

theorem subP_child (root : Node) {w u : ANode}
    (hw : w ∈ subAll (annotate_traversal_orders root)) (hu : u ∈ w.children) :
    (u, some w.post) ∈ subP (annotate_traversal_orders root) none :=
  (subP_mem_iff ..).mpr (Or.inr ⟨w, hw, hu, rfl⟩)

theorem rowOf_mem_accelStore (root : Node) {u : ANode} {pp : Option Nat}
    (h : (u, pp) ∈ subP (annotate_traversal_orders root) none) :
    rowOf u pp ∈ accelStore root :=
  mem_insert_to_db.mpr ⟨u, pp, h, rfl⟩

theorem findRow_eq_some {rows : List Row}
    (hn : (rows.map Row.id).Nodup) {r : Row} (hr : r ∈ rows) :
    findRow rows r.id = some r := by
  induction rows with
  | nil => cases hr
  | cons x xs ih =>
    rw [List.map_cons, List.nodup_cons] at hn
    rcases List.mem_cons.mp hr with h1 | h1
    · subst h1
      unfold findRow
      rw [List.find?_cons_of_pos _ (by simp)]
    · have hne : (x.id == r.id) = false := by
        apply beq_eq_false_iff_ne.mpr
        intro hc
        apply hn.1
        rw [hc]
        exact List.mem_map_of_mem Row.id h1
      unfold findRow
      rw [List.find?_cons_of_neg _ (by simp [hne])]
      exact ih hn.2 h1

/-- Looking up a node's id in the store yields its row. -/
theorem findRow_accelStore (root : Node) {u : ANode} {pp : Option Nat}
    (h : (u, pp) ∈ subP (annotate_traversal_orders root) none) :
    findRow (accelStore root) u.post = some (rowOf u pp) :=
  findRow_eq_some (accelStore_ids_nodup root) (rowOf_mem_accelStore root h)

theorem mem_subList_self {u : ANode} {ts : List ANode} (h : u ∈ ts) :
    u ∈ subList ts := by
  induction ts with
  | nil => cases h
  | cons t ts' ih =>
    rw [subList_cons, List.mem_append]
    rcases List.mem_cons.mp h with h1 | h1
    · subst h1
      exact Or.inl (by rw [subAll_eq]; exact List.mem_cons_self ..)
    · exact Or.inr (ih h1)

mutual
/-- Subtree membership is transitive. -/
theorem subAll_trans (t0 : ANode) :
    ∀ a ∈ subAll t0, ∀ u ∈ subAll a, u ∈ subAll t0 := by
  match t0 with
  | .mk ty co p q cs =>
    intro a ha u hu
    rw [subAll_eq] at ha ⊢
    rcases List.mem_cons.mp ha with h1 | h1
    · subst h1; exact hu
    · exact List.mem_cons.mpr (Or.inr (subList_trans _ a h1 u hu))

theorem subList_trans (ts : List ANode) :
    ∀ a ∈ subList ts, ∀ u ∈ subAll a, u ∈ subList ts := by
  match ts with
  | [] => intro a ha; cases ha
  | t :: ts' =>
    intro a ha u hu
    rw [subList_cons, List.mem_append] at ha ⊢
    rcases ha with h1 | h1
    · exact Or.inl (subAll_trans t a h1 u hu)
    · exact Or.inr (subList_trans ts' a h1 u hu)
end

mutual
/-- Every strict subnode is the child of some subnode (its parent). -/
theorem mem_subAll_decomp (t : ANode) :
    ∀ u ∈ subAll t, u = t ∨ ∃ w ∈ subAll t, u ∈ w.children := by
  match t with
  | .mk ty co p q cs =>
    intro u hu
    rw [subAll_eq] at hu
    rcases List.mem_cons.mp hu with h1 | h1
    · exact Or.inl h1
    · rcases mem_subList_decomp cs u h1 with h2 | ⟨w, hw, h3⟩
      · exact Or.inr ⟨ANode.mk ty co p q cs,
          by rw [subAll_eq]; exact List.mem_cons_self .., h2⟩
      · exact Or.inr ⟨w,
          by rw [subAll_eq]; exact List.mem_cons.mpr (Or.inr hw), h3⟩

theorem mem_subList_decomp (ts : List ANode) :
    ∀ u ∈ subList ts, u ∈ ts ∨ ∃ w ∈ subList ts, u ∈ w.children := by
  match ts with
  | [] => intro u hu; cases hu
  | t :: ts' =>
    intro u hu
    rw [subList_cons, List.mem_append] at hu
    rcases hu with h1 | h1
    · rcases mem_subAll_decomp t u h1 with h2 | ⟨w, hw, h3⟩
      · exact Or.inl (List.mem_cons.mpr (Or.inl h2))
      · exact Or.inr ⟨w,
          by rw [subList_cons, List.mem_append]; exact Or.inl hw, h3⟩
    · rcases mem_subList_decomp ts' u h1 with h2 | ⟨w, hw, h3⟩
      · exact Or.inl (List.mem_cons.mpr (Or.inr h2))
      · exact Or.inr ⟨w,
          by rw [subList_cons, List.mem_append]; exact Or.inr hw, h3⟩
end

theorem rowOf_id (u : ANode) (pp : Option Nat) : (rowOf u pp).id = u.post := rfl

theorem rowOf_parent (u : ANode) (pp : Option Nat) :
    (rowOf u pp).parent = pp := rfl

theorem rowOf_pre (u : ANode) (pp : Option Nat) : (rowOf u pp).pre = u.pre := rfl

theorem rowOf_post (u : ANode) (pp : Option Nat) :
    (rowOf u pp).post = u.post := rfl

theorem rowOf_type (u : ANode) (pp : Option Nat) :
    (rowOf u pp).type = u.type := rfl

theorem rowOf_content (u : ANode) (pp : Option Nat) :
    (rowOf u pp).content = contentStored u.content := rfl

theorem mem_subAll_of_strict {v u : ANode} (h : u ∈ subList v.children) :
    u ∈ subAll v := by
  rw [subAll_eq]
  exact List.mem_cons.mpr (Or.inr h)

theorem cteIter_le_mono (step : List Nat → List Nat) (init : List Nat)
    {m n : Nat} (h : m ≤ n) :
    ∀ x ∈ cteIter step init m, x ∈ cteIter step init n := by
  induction n with
  | zero =>
    intro x hx
    have : m = 0 := Nat.le_zero.mp h
    subst this
    exact hx
  | succ n ih =>
    intro x hx
    by_cases hm : m = n + 1
    · subst hm; exact hx
    · have h2 : m ≤ n := by omega
      simp only [cteIter]
      exact List.mem_append.mpr (Or.inl (ih h2 x hx))

theorem mem_cteIter_init (step : List Nat → List Nat) (init : List Nat)
    (n : Nat) {x : Nat} (h : x ∈ init) : x ∈ cteIter step init n :=
  cteIter_le_mono step init (Nat.zero_le n) x h

theorem mem_cteIter_step (step : List Nat → List Nat) (init : List Nat)
    (n : Nat) {x : Nat} (h : x ∈ step (cteIter step init n)) :
    x ∈ cteIter step init (n + 1) := by
  simp only [cteIter]
  by_cases hx : x ∈ cteIter step init n
  · exact List.mem_append.mpr (Or.inl hx)
  · exact List.mem_append.mpr
      (Or.inr (List.mem_filter.mpr ⟨h, by simpa using hx⟩))

theorem cteIter_succ_cases (step : List Nat → List Nat) (init : List Nat)
    (n : Nat) {x : Nat} (h : x ∈ cteIter step init (n + 1)) :
    x ∈ cteIter step init n ∨ x ∈ step (cteIter step init n) := by
  simp only [cteIter] at h
  rcases List.mem_append.mp h with h1 | h1
  · exact Or.inl h1
  · exact Or.inr (List.mem_filter.mp h1).1

theorem mem_descAnchor {rows : List Row} {cid x : Nat} :
    x ∈ descAnchor rows cid ↔
      ∃ r ∈ rows, r.parent = some cid ∧ r.id = x := by
  constructor
  · intro h
    obtain ⟨r, hr, heq⟩ := List.mem_map.mp h
    have h2 := List.mem_filter.mp hr
    exact ⟨r, h2.1, by simpa using h2.2, heq⟩
  · rintro ⟨r, hr, hp, rfl⟩
    exact List.mem_map.mpr ⟨r, List.mem_filter.mpr ⟨hr, by simpa using hp⟩, rfl⟩

theorem mem_descStep {rows : List Row} {s : List Nat} {x : Nat} :
    x ∈ descStep rows s ↔
      ∃ r ∈ rows, (∃ p, r.parent = some p ∧ p ∈ s) ∧ r.id = x := by
  constructor
  · intro h
    obtain ⟨r, hr, heq⟩ := List.mem_map.mp h
    have h2 := List.mem_filter.mp hr
    refine ⟨r, h2.1, ?_, heq⟩
    have hc := h2.2
    rcases hp : r.parent with _ | p
    · rw [hp] at hc; simp at hc
    · rw [hp] at hc
      simp only [decide_eq_true_eq] at hc
      exact ⟨p, rfl, hc⟩
  · rintro ⟨r, hr, ⟨p, hp, hps⟩, rfl⟩
    refine List.mem_map.mpr ⟨r, List.mem_filter.mpr ⟨hr, ?_⟩, rfl⟩
    rw [hp]
    simpa using hps

theorem mem_cteAnchor {rows : List Row} {c : String} {x : Nat} :
    x ∈ cteAnchor rows c ↔
      ∃ r ∈ rows, r.type = "author" ∧ r.content = some c ∧
        r.parent = some x := by
  constructor
  · intro h
    obtain ⟨r, hr, hpar⟩ := List.mem_filterMap.mp h
    have h2 := List.mem_filter.mp hr
    have hc := h2.2
    simp only [Bool.and_eq_true, beq_iff_eq] at hc
    exact ⟨r, h2.1, hc.1.1, hc.1.2, hpar⟩
  · rintro ⟨r, hr, h1, h2, h3⟩
    refine List.mem_filterMap.mpr ⟨r, List.mem_filter.mpr ⟨hr, ?_⟩, h3⟩
    simp [h1, h2, h3]

theorem mem_cteStep {rows : List Row} {s : List Nat} {x : Nat} :
    x ∈ cteStep rows s ↔
      ∃ r ∈ rows, r.id ∈ s ∧ r.parent = some x := by
  constructor
  · intro h
    obtain ⟨r, hr, hpar⟩ := List.mem_filterMap.mp h
    have h2 := List.mem_filter.mp hr
    have hc := h2.2
    simp only [Bool.and_eq_true, decide_eq_true_eq] at hc
    exact ⟨r, h2.1, hc.1, hpar⟩
  · rintro ⟨r, hr, h1, h2⟩
    refine List.mem_filterMap.mpr ⟨r, List.mem_filter.mpr ⟨hr, ?_⟩, h2⟩
    simp [h1, h2]

/-- Soundness of the `descendants` CTE over a tree store: every id it
collects is the post order (= id) of a proper descendant of `v`. -/
theorem descCTE_sound (root : Node) {v : ANode}
    (hv : v ∈ subAll (annotate_traversal_orders root)) (n : Nat) :
    ∀ x ∈ cteIter (descStep (accelStore root))
        (descAnchor (accelStore root) v.post) n,
      ∃ u, u ∈ subList v.children ∧ x = u.post := by
  induction n with
  | zero =>
    intro x hx
    obtain ⟨r, hr, hp, hid⟩ := mem_descAnchor.mp hx
    obtain ⟨u, pp, hsubp, rfl⟩ := mem_insert_to_db.mp hr
    rw [rowOf_parent] at hp
    rw [rowOf_id] at hid
    rcases (subP_mem_iff ..).mp hsubp with ⟨_, hpp⟩ | ⟨w, hw, hu, hpp⟩
    · rw [hpp] at hp; cases hp
    · rw [hpp] at hp
      have hwv : w = v := post_inj root 1 1 hw hv (Option.some.inj hp)
      subst hwv
      exact ⟨u, mem_subList_self hu, hid.symm⟩
  | succ n ih =>
    intro x hx
    rcases cteIter_succ_cases _ _ _ hx with h1 | h1
    · exact ih x h1
    · obtain ⟨r, hr, ⟨p, hp, hps⟩, hid⟩ := mem_descStep.mp h1
      obtain ⟨u', hu', hpu'⟩ := ih p hps
      obtain ⟨u, pp, hsubp, rfl⟩ := mem_insert_to_db.mp hr
      rw [rowOf_parent] at hp
      rw [rowOf_id] at hid
      rcases (subP_mem_iff ..).mp hsubp with ⟨_, hpp⟩ | ⟨w, hw, hu, hpp⟩
      · rw [hpp] at hp; cases hp
      · rw [hpp] at hp
        have hu'T : u' ∈ subAll (annotate_traversal_orders root) :=
          subAll_trans _ v hv u' (mem_subAll_of_strict hu')
        have hwu' : w = u' := by
          apply post_inj root 1 1 hw hu'T
          rw [← hpu']
          exact Option.some.inj hp
        subst hwu'
        refine ⟨u, ?_, hid.symm⟩
        exact subList_trans v.children w hu' u
          (mem_subAll_of_strict (mem_subList_self hu))

/-- Completeness of the `descendants` CTE over a tree store: every proper
descendant's id is collected within `pre(u)` iterations. -/
theorem descCTE_complete (root : Node) {v : ANode}
    (hv : v ∈ subAll (annotate_traversal_orders root)) :
    ∀ u ∈ subList v.children,
      u.post ∈ cteIter (descStep (accelStore root))
        (descAnchor (accelStore root) v.post) u.pre := by
  suffices h : ∀ k, ∀ u, u.pre ≤ k → u ∈ subList v.children →
      u.post ∈ cteIter (descStep (accelStore root))
        (descAnchor (accelStore root) v.post) u.pre by
    intro u hu
    exact h u.pre u le_rfl hu
  intro k
  induction k with
  | zero =>
    intro u hk hu
    have huT : u ∈ subAll (annotate_traversal_orders root) :=
      subAll_trans _ v hv u (mem_subAll_of_strict hu)
    have h1 := (mem_subAll_pre root 1 1 huT).1
    omega
  | succ k ih =>
    intro u hk hu
    rcases mem_subAll_decomp v u (mem_subAll_of_strict hu) with rfl | ⟨w, hw, hcw⟩
    · have := (nest_all root 1 1 hv hu).1
      omega
    · have hwT : w ∈ subAll (annotate_traversal_orders root) :=
        subAll_trans _ v hv w hw
      have huT : u ∈ subAll (annotate_traversal_orders root) :=
        subAll_trans _ v hv u (mem_subAll_of_strict hu)
      have hrow := rowOf_mem_accelStore root (subP_child root hwT hcw)
      rw [subAll_eq] at hw
      rcases List.mem_cons.mp hw with rfl | hwstrict
      · apply mem_cteIter_init
        exact mem_descAnchor.mpr
          ⟨rowOf u (some w.post), hrow, rowOf_parent .., rowOf_id ..⟩
      · have hwpre : w.pre < u.pre :=
          (nest_all root 1 1 hwT (mem_subList_self hcw)).1
        have hw_in := ih w (by omega) hwstrict
        have hmono : w.post ∈ cteIter (descStep (accelStore root))
            (descAnchor (accelStore root) v.post) (u.pre - 1) :=
          cteIter_le_mono _ _ (by omega) _ hw_in
        have hstep : u.post ∈ descStep (accelStore root)
            (cteIter (descStep (accelStore root))
              (descAnchor (accelStore root) v.post) (u.pre - 1)) :=
          mem_descStep.mpr ⟨rowOf u (some w.post), hrow,
            ⟨w.post, rowOf_parent .., hmono⟩, rowOf_id ..⟩
        have hfin := mem_cteIter_step _ _ _ hstep
        have hpre1 : 1 ≤ u.pre := (mem_subAll_pre root 1 1 huT).1
        rwa [Nat.sub_add_cancel hpre1] at hfin

theorem subP_exists (root : Node) {u : ANode}
    (h : u ∈ subAll (annotate_traversal_orders root)) :
    ∃ pp, (u, pp) ∈ subP (annotate_traversal_orders root) none := by
  rw [← subP_fst (annotate_traversal_orders root) none] at h
  obtain ⟨⟨u', pp⟩, hmem, heq⟩ := List.mem_map.mp h
  cases heq
  exact ⟨pp, hmem⟩

theorem filter_sel_ids_nodup (root : Node) (φ : Row → Bool) :
    ((((accelStore root).filter φ).map sel).map Prod.fst).Nodup := by
  have heq : (((accelStore root).filter φ).map sel).map Prod.fst
      = ((accelStore root).filter φ).map Row.id := by
    rw [List.map_map]; rfl
  rw [heq]
  exact (accelStore_ids_nodup root).sublist
    ((List.filter_sublist _).map Row.id)

/-- The id set returned by the closure-strategy `descendant_nodes` is the
set of proper descendants of the context node. -/
theorem mem_descendant_nodes (root : Node) {v : ANode}
    (hv : v ∈ subAll (annotate_traversal_orders root)) {x : Nat} :
    x ∈ (descendant_nodes (accelStore root) v.post).map Prod.fst ↔
      ∃ u, u ∈ subList v.children ∧ x = u.post := by
  constructor
  · intro h
    obtain ⟨y, hy, hfst⟩ := List.mem_map.mp h
    obtain ⟨r, hrf, hsel⟩ := List.mem_map.mp hy
    have h2 := List.mem_filter.mp hrf
    have hid : r.id ∈ descendantsCTE (accelStore root) v.post := by
      simpa using h2.2
    obtain ⟨u, hu, heq⟩ := descCTE_sound root hv _ r.id hid
    refine ⟨u, hu, ?_⟩
    rw [← hfst, ← hsel]
    exact heq
  · rintro ⟨u, hu, rfl⟩
    have huT : u ∈ subAll (annotate_traversal_orders root) :=
      subAll_trans _ v hv u (mem_subAll_of_strict hu)
    have hupre : u.pre ≤ (accelStore root).length := by
      have := (mem_subAll_pre root 1 1 huT).2
      rw [accelStore_length]
      omega
    have hcte : u.post ∈ descendantsCTE (accelStore root) v.post :=
      cteIter_le_mono _ _ hupre _ (descCTE_complete root hv u hu)
    obtain ⟨pp, hpp⟩ := subP_exists root huT
    have hrow := rowOf_mem_accelStore root hpp
    exact List.mem_map.mpr ⟨sel (rowOf u pp),
      List.mem_map.mpr ⟨rowOf u pp,
        List.mem_filter.mpr ⟨hrow, by simpa [rowOf_id] using hcte⟩, rfl⟩, rfl⟩

/-- The id set returned by the range-strategy descendant window is also
the set of proper descendants of the context node. -/
theorem mem_desc_window (root : Node) {v : ANode} {pp : Option Nat}
    (hpp : (v, pp) ∈ subP (annotate_traversal_orders root) none) {x : Nat} :
    x ∈ (xpath_descendant_window_accel (accelStore root) v.post).map Prod.fst ↔
      ∃ u, u ∈ subList v.children ∧ x = u.post := by
  have hv : v ∈ subAll (annotate_traversal_orders root) :=
    subP_mem_subAll root hpp
  have hfind := findRow_accelStore root hpp
  simp only [xpath_descendant_window_accel, hfind]
  constructor
  · intro h
    obtain ⟨y, hy, hfst⟩ := List.mem_map.mp h
    obtain ⟨r, hrf, hsel⟩ := List.mem_map.mp hy
    have h2 := List.mem_filter.mp hrf
    obtain ⟨u, ppu, hsubpu, rfl⟩ := mem_insert_to_db.mp h2.1
    have hcond := h2.2
    simp only [rowOf_pre, rowOf_post, decide_eq_true_eq] at hcond
    have huT := subP_mem_subAll root hsubpu
    have hne : v ≠ u := by
      intro he
      rw [he] at hcond
      omega
    have hsb : strictBelow v u :=
      (below_iff_window root 1 1 hv huT hne).mpr ⟨hcond.1, hcond.2⟩
    refine ⟨u, hsb, ?_⟩
    rw [← hfst, ← hsel]
    rfl
  · rintro ⟨u, hu, rfl⟩
    have huT : u ∈ subAll (annotate_traversal_orders root) :=
      subAll_trans _ v hv u (mem_subAll_of_strict hu)
    have hnest := nest_all root 1 1 hv hu
    obtain ⟨ppu, hppu⟩ := subP_exists root huT
    have hrow := rowOf_mem_accelStore root hppu
    exact List.mem_map.mpr ⟨sel (rowOf u ppu),
      List.mem_map.mpr ⟨rowOf u ppu,
        List.mem_filter.mpr ⟨hrow, by
          simp only [rowOf_pre, rowOf_post, decide_eq_true_eq]
          exact hnest⟩, rfl⟩, rfl⟩

/-- Two distinct trees of one encoded forest: their pre orders and post
orders compare the same way. -/
theorem calcList_top_agree (ts : List Node) (p q : Nat) :
    ∀ u ∈ (calcList ts p q).1, ∀ w ∈ (calcList ts p q).1, u ≠ w →
      (u.pre < w.pre ↔ u.post < w.post) := by
  induction ts generalizing p q with
  | nil => intro u hu; simp [calcList] at hu
  | cons t ts' ih =>
    intro u hu w hw hne
    simp only [calcList, List.mem_cons] at hu hw
    have c1 := (calc_spec t p q).1
    have c2 := (calc_spec t p q).2.1
    have hself : (calculate_traversal_orders t p q).1
        ∈ subAll (calculate_traversal_orders t p q).1 := by
      rw [subAll_eq]; exact List.mem_cons_self ..
    rcases hu with rfl | hu <;> rcases hw with rfl | hw
    · exact absurd rfl hne
    · have hu1 := mem_subAll_pre t p q hself
      have hu2 := mem_subAll_post t p q hself
      have hw1 := mem_subList_pre ts' _ _ (mem_subList_self hw)
      have hw2 := mem_subList_post ts' _ _ (mem_subList_self hw)
      rw [c1] at hw1
      rw [c2] at hw2
      constructor <;> intro <;> omega
    · have hw1 := mem_subAll_pre t p q hself
      have hw2 := mem_subAll_post t p q hself
      have hu1 := mem_subList_pre ts' _ _ (mem_subList_self hu)
      have hu2 := mem_subList_post ts' _ _ (mem_subList_self hu)
      rw [c1] at hu1
      rw [c2] at hu2
      constructor <;> intro <;> omega
    · exact ih _ _ u hu w hw hne

/-- Two distinct children of the same tree node: pre order and post order
compare the same way (siblings' intervals are disjoint). -/
theorem children_agree (root : Node) {w u v' : ANode}
    (hw : w ∈ subAll (annotate_traversal_orders root))
    (hu : u ∈ w.children) (hv : v' ∈ w.children) (hne : u ≠ v') :
    (u.pre < v'.pre ↔ u.post < v'.post) := by
  obtain ⟨t', p', q', heq⟩ := subAll_src root 1 1 w hw
  subst heq
  rw [calc_root_children] at hu hv
  exact calcList_top_agree _ _ _ u hu v' hv hne

/-- Parent pointers in the store are posts of real nodes, hence ≥ 1. -/
theorem subP_parent_pos (root : Node) {u : ANode} {pid : Nat}
    (h : (u, some pid) ∈ subP (annotate_traversal_orders root) none) :
    1 ≤ pid := by
  rcases (subP_mem_iff ..).mp h with ⟨_, hpp⟩ | ⟨w, hw, _, hpp⟩
  · cases hpp
  · have := (mem_subAll_post root 1 1 hw).1
    rw [Option.some.injEq] at hpp
    omega

/-- A row's parent pointer names its tree parent: two rows with the same
parent pointer are rows of children of the same node. -/
theorem subP_same_parent (root : Node) {u v' : ANode} {pid : Nat}
    (hu : (u, some pid) ∈ subP (annotate_traversal_orders root) none)
    (hv : (v', some pid) ∈ subP (annotate_traversal_orders root) none) :
    ∃ w, w ∈ subAll (annotate_traversal_orders root) ∧
      u ∈ w.children ∧ v' ∈ w.children := by
  rcases (subP_mem_iff ..).mp hu with ⟨_, hpp⟩ | ⟨w, hw, hcu, hpp⟩
  · cases hpp
  · rcases (subP_mem_iff ..).mp hv with ⟨_, hpp'⟩ | ⟨w', hw', hcv, hpp'⟩
    · cases hpp'
    · rw [Option.some.injEq] at hpp hpp'
      have : w' = w := post_inj root 1 1 hw' hw (by rw [← hpp, ← hpp'])
      subst this
      exact ⟨w', hw, hcu, hcv⟩

/-- For `article` context nodes the closure `siblings` and the
range-window sibling functions filter the same rows: on siblings the
`post_order` comparison and the `pre_order` comparison agree. -/
theorem sibling_equiv (root : Node) {v : ANode} {pp : Option Nat}
    (hpp : (v, pp) ∈ subP (annotate_traversal_orders root) none)
    (harticle : v.type = "article") :
    siblings (accelStore root) v.post "following"
      = xpath_following_sibling_window_accel (accelStore root) v.post ∧
    siblings (accelStore root) v.post "preceding"
      = xpath_preceding_sibling_window_accel (accelStore root) v.post := by
  have hfind := findRow_accelStore root hpp
  have htyeq : (rowOf v pp).type = "article" := by
    rw [rowOf_type]; exact harticle
  rcases hppcase : pp with _ | pid
  · subst hppcase
    constructor <;>
      simp [siblings, xpath_following_sibling_window_accel,
        xpath_preceding_sibling_window_accel, hfind, rowOf_parent, htyeq]
  · subst hppcase
    have hpid : 1 ≤ pid := subP_parent_pos root hpp
    have hmain : ∀ u : ANode, ∀ ppu,
        (u, ppu) ∈ subP (annotate_traversal_orders root) none →
        ppu = some pid → u ≠ v →
        ((v.post < u.post ↔ v.pre < u.pre) ∧
         (u.post < v.post ↔ u.pre < v.pre)) := by
      intro u ppu hu hppu hne
      rw [hppu] at hu
      obtain ⟨w, hw, hcu, hcv⟩ := subP_same_parent root hu hpp
      constructor
      · exact (children_agree root hw hcv hcu (fun h => hne h.symm)).symm
      · exact (children_agree root hw hcu hcv hne).symm
    constructor
    · simp only [siblings, xpath_following_sibling_window_accel, hfind,
        rowOf_parent, htyeq]
      rw [if_neg (by simp [htyeq]), if_neg (by omega), if_pos (by trivial),
        if_pos (by simp [htyeq])]
      congr 1
      apply List.filter_congr
      intro r hr
      obtain ⟨u, ppu, hsubpu, rfl⟩ := mem_insert_to_db.mp hr
      by_cases h1 : ppu = some pid
      · by_cases h2 : u.type = "article"
        · by_cases h3 : u = v
          · subst h3
            simp [rowOf_parent, rowOf_type, rowOf_post, rowOf_pre]
          · have hiff := (hmain u ppu hsubpu h1 h3).1
            simp only [rowOf_parent, rowOf_type, rowOf_post, rowOf_pre, h1,
              h2, harticle]
            simp only [beq_self_eq_true, Bool.true_and, Bool.and_true]
            exact decide_eq_decide.mpr hiff
        · have hbf : (u.type == "article") = false :=
            beq_eq_false_iff_ne.mpr h2
          simp only [rowOf_parent, rowOf_type, rowOf_post, rowOf_pre, hbf]
          simp
      · have hbf : (ppu == some pid) = false := beq_eq_false_iff_ne.mpr h1
        simp only [rowOf_parent, rowOf_type, rowOf_post, rowOf_pre, hbf]
        simp
    · simp only [siblings, xpath_preceding_sibling_window_accel, hfind,
        rowOf_parent, htyeq]
      rw [if_neg (by simp [htyeq]), if_neg (by omega),
        if_neg (by decide), if_pos (by simp [htyeq])]
      congr 1
      apply List.filter_congr
      intro r hr
      obtain ⟨u, ppu, hsubpu, rfl⟩ := mem_insert_to_db.mp hr
      by_cases h1 : ppu = some pid
      · by_cases h2 : u.type = "article"
        · by_cases h3 : u = v
          · subst h3
            simp [rowOf_parent, rowOf_type, rowOf_post, rowOf_pre]
          · have hiff := (hmain u ppu hsubpu h1 h3).2
            simp only [rowOf_parent, rowOf_type, rowOf_post, rowOf_pre, h1,
              h2, harticle]
            simp only [beq_self_eq_true, Bool.true_and, Bool.and_true]
            exact decide_eq_decide.mpr hiff
        · have hbf : (u.type == "article") = false :=
            beq_eq_false_iff_ne.mpr h2
          simp only [rowOf_parent, rowOf_type, rowOf_post, rowOf_pre, hbf]
          simp
      · have hbf : (ppu == some pid) = false := beq_eq_false_iff_ne.mpr h1
        simp only [rowOf_parent, rowOf_type, rowOf_post, rowOf_pre, hbf]
        simp

/-- Soundness of the `ancestors` CTE over a tree store: every id it
collects is the post order of a proper ancestor of some author node whose
stored content is `c`. -/
theorem ancCTE_sound (root : Node) (c : String) (n : Nat) :
    ∀ x ∈ cteIter (cteStep (accelStore root))
        (cteAnchor (accelStore root) c) n,
      ∃ u a, u ∈ subAll (annotate_traversal_orders root) ∧
        u.type = "author" ∧ contentStored u.content = some c ∧
        a ∈ subAll (annotate_traversal_orders root) ∧
        u ∈ subList a.children ∧ x = a.post := by
  induction n with
  | zero =>
    intro x hx
    obtain ⟨r, hr, hty, hco, hpar⟩ := mem_cteAnchor.mp hx
    obtain ⟨u, pp, hsubp, rfl⟩ := mem_insert_to_db.mp hr
    rw [rowOf_type] at hty
    rw [rowOf_content] at hco
    rw [rowOf_parent] at hpar
    rcases (subP_mem_iff ..).mp hsubp with ⟨_, hpp⟩ | ⟨w, hw, hu, hpp⟩
    · rw [hpp] at hpar; cases hpar
    · rw [hpp] at hpar
      exact ⟨u, w, subP_mem_subAll root hsubp, hty, hco, hw,
        mem_subList_self hu, (Option.some.inj hpar).symm⟩
  | succ n ih =>
    intro x hx
    rcases cteIter_succ_cases _ _ _ hx with h1 | h1
    · exact ih x h1
    · obtain ⟨r, hr, hid, hpar⟩ := mem_cteStep.mp h1
      obtain ⟨u, a, huT, hty, hco, haT, hua, hida⟩ := ih r.id hid
      obtain ⟨b, pp, hsubp, rfl⟩ := mem_insert_to_db.mp hr
      rw [rowOf_id] at hida
      rw [rowOf_parent] at hpar
      have hba : b = a := post_inj root 1 1 (subP_mem_subAll root hsubp) haT hida
      subst hba
      rcases (subP_mem_iff ..).mp hsubp with ⟨_, hpp⟩ | ⟨w, hw, hbw, hpp⟩
      · rw [hpp] at hpar; cases hpar
      · rw [hpp] at hpar
        refine ⟨u, w, huT, hty, hco, hw, ?_, (Option.some.inj hpar).symm⟩
        exact subList_trans w.children b (mem_subList_self hbw) u
          (mem_subAll_of_strict hua)

/-- Walking the parent chain: if a node on it is in the CTE set, every
ancestor above is collected within `pre` more iterations. -/
theorem ancCTE_up (root : Node) (init : List Nat) :
    ∀ k z a, z.pre ≤ k →
      z ∈ subAll (annotate_traversal_orders root) →
      a ∈ subAll (annotate_traversal_orders root) →
      z ∈ subList a.children →
      ∀ m, z.post ∈ cteIter (cteStep (accelStore root)) init m →
        a.post ∈ cteIter (cteStep (accelStore root)) init (m + z.pre) := by
  intro k
  induction k with
  | zero =>
    intro z a hk hzT haT hza m hm
    have := (mem_subAll_pre root 1 1 hzT).1
    omega
  | succ k ih =>
    intro z a hk hzT haT hza m hm
    rcases mem_subAll_decomp a z (mem_subAll_of_strict hza) with rfl | ⟨w, hw, hcw⟩
    · have := (nest_all root 1 1 haT hza).1
      omega
    · have hwT : w ∈ subAll (annotate_traversal_orders root) :=
        subAll_trans _ a haT w hw
      have hrow := rowOf_mem_accelStore root (subP_child root hwT hcw)
      have hstep : w.post ∈ cteStep (accelStore root)
          (cteIter (cteStep (accelStore root)) init m) :=
        mem_cteStep.mpr ⟨rowOf z (some w.post), hrow,
          by rw [rowOf_id]; exact hm, rowOf_parent ..⟩
      have hw1 := mem_cteIter_step _ _ _ hstep
      have hzpre : 1 ≤ z.pre := (mem_subAll_pre root 1 1 hzT).1
      rw [subAll_eq] at hw
      rcases List.mem_cons.mp hw with rfl | hwstrict
      · exact cteIter_le_mono _ _ (by omega) _ hw1
      · have hwpre : w.pre < z.pre :=
          (nest_all root 1 1 hwT (mem_subList_self hcw)).1

        have := ih w a (by omega) hwT haT hwstrict (m + 1) hw1
        exact cteIter_le_mono _ _ (by omega) _ this

/-- Completeness of the `ancestors` CTE: the post order of every proper
ancestor of every author node with stored content `c` is collected. -/
theorem ancCTE_complete (root : Node) {c : String} {u a : ANode}
    (huT : u ∈ subAll (annotate_traversal_orders root))
    (hty : u.type = "author") (hco : contentStored u.content = some c)
    (haT : a ∈ subAll (annotate_traversal_orders root))
    (hau : u ∈ subList a.children) :
    a.post ∈ ancestorsCTE (accelStore root) c := by
  rcases mem_subAll_decomp a u (mem_subAll_of_strict hau) with rfl | ⟨w, hw, hcw⟩
  · have := (nest_all root 1 1 haT hau).1
    omega
  · have hwT : w ∈ subAll (annotate_traversal_orders root) :=
      subAll_trans _ a haT w hw
    have hrow := rowOf_mem_accelStore root (subP_child root hwT hcw)
    have hanchor : w.post ∈ cteAnchor (accelStore root) c :=
      mem_cteAnchor.mpr ⟨rowOf u (some w.post), hrow,
        by rw [rowOf_type]; exact hty,
        by rw [rowOf_content]; exact hco, rowOf_parent ..⟩
    have hwpre_le : w.pre ≤ (accelStore root).length := by
      have := (mem_subAll_pre root 1 1 hwT).2
      rw [accelStore_length]
      omega
    rw [subAll_eq] at hw
    rcases List.mem_cons.mp hw with rfl | hwstrict
    · exact mem_cteIter_init _ _ _ hanchor
    · have h0 : w.post ∈ cteIter (cteStep (accelStore root))
          (cteAnchor (accelStore root) c) 0 := hanchor
      have := ancCTE_up root (cteAnchor (accelStore root) c) w.pre w a
        le_rfl hwT haT hwstrict 0 h0
      exact cteIter_le_mono _ _ (by omega) _ this

theorem contentStored_ne {co : Option String} {c : String}
    (h : contentStored co = some c) : c ≠ "" := by
  cases co with
  | none => cases h
  | some s =>
    simp only [contentStored] at h
    by_cases hs : hasNonWS s
    · rw [if_pos hs] at h
      obtain rfl := Option.some.inj h
      intro hc
      rw [hc] at hs
      exact absurd hs (by decide)
    · rw [if_neg hs] at h; cases h

/-- On an author context row with stored content the ancestor window
function takes the content-anchored CTE branch. -/
theorem anc_window_author (root : Node) {v : ANode} {pp : Option Nat}
    {c : String}
    (hpp : (v, pp) ∈ subP (annotate_traversal_orders root) none)
    (hty : v.type = "author") (hco : contentStored v.content = some c) :
    xpath_ancestor_window_accel (accelStore root) v.post
      = ancestor_nodes (accelStore root) c := by
  have hfind := findRow_accelStore root hpp
  have hcne : c ≠ "" := contentStored_ne hco
  have h2 : (rowOf v pp).content = some c := by
    rw [rowOf_content]; exact hco
  have h1 : ((rowOf v pp).type == "author" && pyTruthy (some c)) = true := by
    rw [rowOf_type]
    simp [hty, pyTruthy, beq_eq_false_iff_ne.mpr hcne]
  simp only [xpath_ancestor_window_accel, hfind, h2, h1]

/-- The id set returned by `ancestor_nodes` is the union of the proper
ancestor sets of all author nodes with stored content `c`. -/
theorem mem_ancestor_nodes (root : Node) (c : String) {x : Nat} :
    x ∈ (ancestor_nodes (accelStore root) c).map Prod.fst ↔
      ∃ u a, u ∈ subAll (annotate_traversal_orders root) ∧
        u.type = "author" ∧ contentStored u.content = some c ∧
        a ∈ subAll (annotate_traversal_orders root) ∧
        u ∈ subList a.children ∧ x = a.post := by
  constructor
  · intro h
    obtain ⟨y, hy, hfst⟩ := List.mem_map.mp h
    obtain ⟨r, hrf, hsel⟩ := List.mem_map.mp hy
    have h2 := List.mem_filter.mp hrf
    have hid : r.id ∈ ancestorsCTE (accelStore root) c := by
      simpa using h2.2
    obtain ⟨u, a, h3, h4, h5, h6, h7, h8⟩ := ancCTE_sound root c _ r.id hid
    exact ⟨u, a, h3, h4, h5, h6, h7, by rw [← hfst, ← hsel]; exact h8⟩
  · rintro ⟨u, a, h3, h4, h5, h6, h7, rfl⟩
    have hcte : a.post ∈ ancestorsCTE (accelStore root) c :=
      ancCTE_complete root h3 h4 h5 h6 h7
    obtain ⟨pp, hppa⟩ := subP_exists root h6
    have hrow := rowOf_mem_accelStore root hppa
    exact List.mem_map.mpr ⟨sel (rowOf a pp),
      List.mem_map.mpr ⟨rowOf a pp,
        List.mem_filter.mpr ⟨hrow, by simpa [rowOf_id] using hcte⟩, rfl⟩, rfl⟩

/-- **C2 (amended)**: over every store built from an encoded tree, the
closure strategy and the range strategy agree as id sets where both are
defined on the same context: the descendant axis agrees for every node
(both results duplicate-free); the ancestor axis agrees for author-typed
context nodes with stored content (the window function runs exactly the
closure query `ancestor_nodes`); the sibling axes agree for
`article`-typed context nodes.  For non-`article` contexts the sibling
strategies disagree (see the counterexample), and for non-author contexts
the closure ancestor query is keyed by content, not id. -/
theorem claim_c2_amended (root : Node) (v : ANode)
    (hv : v ∈ subAll (annotate_traversal_orders root)) :
    ((∀ x, x ∈ (descendant_nodes (accelStore root) v.post).map Prod.fst ↔
        x ∈ (xpath_descendant_window_accel
          (accelStore root) v.post).map Prod.fst) ∧
      ((descendant_nodes (accelStore root) v.post).map Prod.fst).Nodup ∧
      ((xpath_descendant_window_accel
          (accelStore root) v.post).map Prod.fst).Nodup) ∧
    (∀ c, v.type = "author" → contentStored v.content = some c →
      xpath_ancestor_window_accel (accelStore root) v.post
        = ancestor_nodes (accelStore root) c) ∧
    (v.type = "article" →
      siblings (accelStore root) v.post "following"
        = xpath_following_sibling_window_accel (accelStore root) v.post ∧
      siblings (accelStore root) v.post "preceding"
        = xpath_preceding_sibling_window_accel (accelStore root) v.post) := by
  obtain ⟨pp, hpp⟩ := subP_exists root hv
  refine ⟨⟨?_, ?_, ?_⟩, ?_, ?_⟩
  · intro x
    rw [mem_descendant_nodes root hv, mem_desc_window root hpp]
  · exact filter_sel_ids_nodup root _
  · have hfind := findRow_accelStore root hpp
    simp only [xpath_descendant_window_accel, hfind]
    exact filter_sel_ids_nodup root _
  · intro c hty hco
    exact anc_window_author root hpp hty hco
  · intro hart
    exact sibling_equiv root hpp hart

/-- **C2** fails as stated: node id 1 is present in the store of the
`bib`/`paper`/`paper` tree, yet for the following-sibling axis the
closure strategy returns the empty id set while the range strategy
returns `{2}`. -/
theorem claim_c2_counterexample :
    (siblings (accelStore (Node.mk "bib" none
      [Node.mk "paper" none [], Node.mk "paper" none []])) 1
        "following").map Prod.fst = [] ∧
    (xpath_following_sibling_window_accel (accelStore (Node.mk "bib" none
      [Node.mk "paper" none [], Node.mk "paper" none []])) 1).map Prod.fst
      = [2] := by
  refine ⟨?_, ?_⟩ <;> rfl

theorem claim_c2_witness :
    ((descendant_nodes (accelStore (Node.mk "year" none
      [Node.mk "article" none [], Node.mk "article" none []])) 1).map
        Prod.fst).Nodup ∧
    (2 ∈ (descendant_nodes (accelStore (Node.mk "year" none
      [Node.mk "article" none [], Node.mk "article" none []])) 1).map
        Prod.fst ↔
     2 ∈ (xpath_descendant_window_accel (accelStore (Node.mk "year" none
      [Node.mk "article" none [], Node.mk "article" none []])) 1).map
        Prod.fst) ∧
    siblings (accelStore (Node.mk "year" none
      [Node.mk "article" none [], Node.mk "article" none []])) 1 "following"
      = xpath_following_sibling_window_accel (accelStore (Node.mk "year" none
        [Node.mk "article" none [], Node.mk "article" none []])) 1 := by
  have h := claim_c2_amended
    (Node.mk "year" none [Node.mk "article" none [], Node.mk "article" none []])
    (ANode.mk "article" none 2 1 []) (by decide)
  exact ⟨h.1.2.1, h.1.1 2, (h.2.2 rfl).1⟩

/-- **C6**: an ancestor query whose context node is author-typed with
stored content returns exactly the union of the proper-ancestor sets of
*all* author nodes in the store carrying that content — not only the
ancestors of the queried instance. -/
theorem claim_c6_author_value_lookup (root : Node) (v : ANode) (c : String)
    (hv : v ∈ subAll (annotate_traversal_orders root))
    (hty : v.type = "author")
    (hco : contentStored v.content = some c) :
    ∀ x, x ∈ (xpath_ancestor_window_accel
        (accelStore root) v.post).map Prod.fst ↔
      ∃ u a, u ∈ subAll (annotate_traversal_orders root) ∧
        u.type = "author" ∧ contentStored u.content = some c ∧
        a ∈ subAll (annotate_traversal_orders root) ∧
        u ∈ subList a.children ∧ x = a.post := by
  obtain ⟨pp, hpp⟩ := subP_exists root hv
  intro x
  rw [anc_window_author root hpp hty hco]
  exact mem_ancestor_nodes root c

theorem claim_c6_witness :
    4 ∈ (xpath_ancestor_window_accel (accelStore (Node.mk "bib" none
      [Node.mk "article" none [Node.mk "author" (some "X") []],
       Node.mk "article" none [Node.mk "author" (some "X") []]])) 1).map
        Prod.fst :=
  ((claim_c6_author_value_lookup
      (Node.mk "bib" none
        [Node.mk "article" none [Node.mk "author" (some "X") []],
         Node.mk "article" none [Node.mk "author" (some "X") []]])
      (ANode.mk "author" (some "X") 3 1 []) "X"
      (by decide) rfl (by decide)) 4).mpr
    ⟨ANode.mk "author" (some "X") 5 3 [],
     ANode.mk "article" none 4 4 [ANode.mk "author" (some "X") 5 3 []],
     by decide, rfl, by decide, by decide, by decide, rfl⟩

/-- **C7** fails as stated: on an edge-only store (no order numbers) the
range-strategy entry point does not fail — it silently falls back to the
closure-strategy recursive query and returns its (non-empty) result.
There is no `EncodingNotPerformed` or `LayoutMismatch` error anywhere in
the code. -/
theorem claim_c7_counterexample :
    xpath_descendant_window
      (Store.edge ⟨[⟨1, "root", none⟩, ⟨2, "child", none⟩], [⟨1, 2, 0⟩]⟩) 1
      = [(2, "child", none)] ∧
    xpath_ancestor_window
      (Store.edge ⟨[⟨1, "root", none⟩, ⟨2, "child", none⟩], [⟨1, 2, 0⟩]⟩) 2
      = [(1, "root", none)] := by
  refine ⟨?_, ?_⟩ <;> rfl

/-- **C7 (amended)**: invoking the range-strategy entry points against an
edge-only store (the layout without order numbers) never raises: the
schema check routes the call to the closure-strategy `_original`
implementations, whose result — possibly non-empty — is returned as an
ordinary list. -/
theorem claim_c7_amended (s : EdgeStore) (cid : Nat) :
    xpath_descendant_window (Store.edge s) cid
      = xpath_descendant_window_original s cid ∧
    xpath_ancestor_window (Store.edge s) cid
      = xpath_ancestor_window_original s cid :=
  ⟨rfl, rfl⟩

/-- **C5**: the bounded evaluator silently truncates.  On the optimized
store of a 112-node chain the root (id 112) has `subtree_size` 112 > 100,
so the depth cap `level <= 0 + 10` applies: the descendant query returns
only the 10 shallowest of the 111 true descendants, and the return value
is a bare list carrying no `IncompleteResult` flag (no such flag exists
in the code). -/
theorem claim_c5_silent_truncation :
    (xpath_descendant_optimized (optimizedStore (chainN 111)) 112).length = 10 ∧
    ((optimizedStore (chainN 111)).filter fun r =>
        decide (1 < r.pre ∧ r.post < 112)).length = 111 := by
  refine ⟨?_, ?_⟩ <;> rfl

end DMRXPath
